import Mathlib

/-!
# uudev: event ingestion, rule matching and debounced command dispatch

A shallow embedding of `main.go` of `qjerome/uudev` and theorems about it.

Conventions of the embedding

* A Go `map[string]T` is an `AList` keyed by `String`: keys are unique by
  construction, and the order of the entries stands for the (unspecified)
  order in which `range` visits the map, so a statement proved for every
  value holds for every iteration order.
* A Go `string` is a Lean `String`; the string functions of the Go standard
  library are written on the list of characters.
* `time.Time` is the number of nanoseconds since the zero time, and
  `time.Duration` a number of nanoseconds; `Time.Sub` saturates at the bounds
  of `int64` as in Go.
* The goroutine of `RunCommand` is embedded as one step on the rule, the
  clock readings and the outcome of the command being arguments; the channel
  of `udevmon` is the list of the events sent, and its input the list of the
  lines that the scanner delivers.
* The packages `regexp` and `time` (its `ParseDuration`) are not part of the
  repository.  The rule code is embedded over an arbitrary implementation of
  them (`GoLib`); `goLib` is a concrete one, covering a fragment of the RE2
  syntax, used where a concrete pattern has to be run.
-/

namespace Main

/-! ## A model of the `regexp` package (fragment) -/

/-- Character classes of the modelled fragment. -/
inductive CharClass where
  /-- a literal character -/
  | lit (c : Char)
  /-- the class written `.`: every character except the newline -/
  | dot
  /-- the class written `\w`: `[0-9A-Za-z_]` -/
  | word
  /-- the class written `\d`: `[0-9]` -/
  | digit
  /-- the class written `\s`: `[\t\n\f\r ]` -/
  | space
  /-- every character; only used to express the unanchored search -/
  | all
  deriving DecidableEq, Repr

/-- Word characters of RE2: ASCII letters, ASCII digits and the underscore. -/
def isWordChar (c : Char) : Bool :=
  (decide ('0'.toNat ≤ c.toNat) && decide (c.toNat ≤ '9'.toNat)) ||
  (decide ('A'.toNat ≤ c.toNat) && decide (c.toNat ≤ 'Z'.toNat)) ||
  (decide ('a'.toNat ≤ c.toNat) && decide (c.toNat ≤ 'z'.toNat)) ||
  c == '_'

/-- Membership of a character in a class. -/
def CharClass.test : CharClass → Char → Bool
  | .lit a, c => c == a
  | .dot, c => c != '\n'
  | .word, c => isWordChar c
  | .digit, c => decide ('0'.toNat ≤ c.toNat) && decide (c.toNat ≤ '9'.toNat)
  | .space, c => c == '\t' || c == '\n' || c == Char.ofNat 12 || c == '\r' || c == ' '
  | .all, _ => true

/-- Compiled regular expression (abstract syntax of the modelled fragment). -/
inductive Regexp where
  /-- matches nothing -/
  | none
  /-- matches the empty string -/
  | eps
  /-- one character of a class -/
  | cls (k : CharClass)
  /-- the assertion `^`: at the beginning of the text -/
  | beginText
  /-- the assertion `$`: at the end of the text -/
  | endText
  /-- concatenation -/
  | cat (r s : Regexp)
  /-- alternation -/
  | alt (r s : Regexp)
  /-- repetition, zero or more times -/
  | star (r : Regexp)
  deriving DecidableEq, Repr

namespace Regexp

/-- Whether `r` matches the empty string at a position that is at the
beginning of the text iff `b`, and at the end of the text iff `e`. -/
def nullable (b e : Bool) : Regexp → Bool
  | none => false
  | eps => true
  | cls _ => false
  | beginText => b
  | endText => e
  | cat r s => nullable b e r && nullable b e s
  | alt r s => nullable b e r || nullable b e s
  | star _ => true

/-- Derivative of `r` by the character `c`, read at a position that is at the
beginning of the text iff `b`. -/
def deriv (b : Bool) (c : Char) : Regexp → Regexp
  | none => none
  | eps => none
  | cls k => if k.test c then eps else none
  | beginText => none
  | endText => none
  | cat r s => alt (cat (deriv b c r) s) (if nullable b false r then deriv b c s else none)
  | alt r s => alt (deriv b c r) (deriv b c s)
  | star r => cat (deriv b c r) (star r)

/-- Whether `r` matches the whole of the remaining text `s`, the current
position being at the beginning of the text iff `b`. -/
def matchFrom (b : Bool) (r : Regexp) : List Char → Bool
  | [] => nullable b true r
  | c :: s => matchFrom false (deriv b c r) s

/-- Model of `(*Regexp).MatchString`: whether the text contains any match of
`r` (an unanchored search: any characters may precede and follow the match). -/
def MatchString (r : Regexp) (s : String) : Bool :=
  matchFrom true (cat (star (cls .all)) (cat r (star (cls .all)))) s.data

/-- One more than zero repetitions: `r+`. -/
def plus (r : Regexp) : Regexp := cat r (star r)

/-- Zero or one: `r?`. -/
def opt (r : Regexp) : Regexp := alt r eps

/-- Declarative meaning of a regular expression: `Den r b e s` says that `r`
matches exactly the characters `s`, where `b` tells whether the match starts
at the beginning of the text and `e` whether it stops at the end of it. -/
inductive Den : Regexp → Bool → Bool → List Char → Prop where
  | eps (b e : Bool) : Den eps b e []
  | cls (k : CharClass) (c : Char) (b e : Bool) (h : k.test c = true) : Den (cls k) b e [c]
  | beginText (e : Bool) : Den beginText true e []
  | endText (b : Bool) : Den endText b true []
  | cat (r s : Regexp) (b e : Bool) (u v w : List Char) (hw : w = u ++ v)
      (hr : Den r b (e && v.isEmpty) u) (hs : Den s (b && u.isEmpty) e v) :
      Den (cat r s) b e w
  | altL (r s : Regexp) (b e : Bool) (w : List Char) (hr : Den r b e w) : Den (alt r s) b e w
  | altR (r s : Regexp) (b e : Bool) (w : List Char) (hs : Den s b e w) : Den (alt r s) b e w
  | starNil (r : Regexp) (b e : Bool) : Den (star r) b e []
  | starCons (r : Regexp) (b e : Bool) (u v w : List Char) (hw : w = u ++ v)
      (hr : Den r b (e && v.isEmpty) u) (hs : Den (star r) (b && u.isEmpty) e v) :
      Den (star r) b e w

end Regexp

/-- Characters that are operators of the RE2 syntax. -/
def isMetaChar (c : Char) : Bool :=
  c ∈ "\\.+*?()|[]\x7b\x7d^$".data

/-- Parser of the modelled fragment.  `acc` holds the pieces read so far, the
last one first; `rep` tells whether the last piece ends in a repetition
operator (a second operator is then refused).  The fragment is: literal
characters, `.`, `^`, `$`, `\w`, `\d`, `\s`, an escaped operator
character, each optionally followed by one of `*`, `+`, `?`.  Groups,
alternation, bracket classes, counted and lazy repetition and the other
escapes are outside the fragment and reported as errors. -/
def parsePieces : List Char → List Regexp → Bool → Except String (List Regexp)
  | [], acc, _ => .ok acc
  | '\\' :: [], _, _ => .error "trailing backslash at end of expression"
  | '\\' :: c :: rest, acc, _ =>
    if c = 'w' then parsePieces rest (.cls .word :: acc) false
    else if c = 'd' then parsePieces rest (.cls .digit :: acc) false
    else if c = 's' then parsePieces rest (.cls .space :: acc) false
    else if isMetaChar c then parsePieces rest (.cls (.lit c) :: acc) false
    else .error "escape sequence outside the modelled fragment"
  | c :: rest, acc, rep =>
    if c = '.' then parsePieces rest (.cls .dot :: acc) false
    else if c = '^' then parsePieces rest (.beginText :: acc) false
    else if c = '$' then parsePieces rest (.endText :: acc) false
    else if c = '*' ∨ c = '+' ∨ c = '?' then
      match acc, rep with
      | [], _ => .error "missing argument to repetition operator"
      | _ :: _, true => .error "nested or lazy repetition outside the modelled fragment"
      | r :: acc, false =>
        if c = '*' then parsePieces rest (.star r :: acc) true
        else if c = '+' then parsePieces rest (r.plus :: acc) true
        else parsePieces rest (r.opt :: acc) true
    else if isMetaChar c then .error "operator outside the modelled fragment"
    else parsePieces rest (.cls (.lit c) :: acc) false

/-- Model of `regexp.Compile` on the fragment: the pieces in sequence. -/
def regexpCompile (pattern : String) : Except String Regexp :=
  match parsePieces pattern.data [] false with
  | .ok acc => .ok (acc.foldl (fun r p => Regexp.cat p r) Regexp.eps)
  | .error msg => .error msg

/-! ## A model of `time` -/

/-- Instants (`time.Time`): nanoseconds elapsed since the zero time. -/
abbrev Time := Int

/-- Durations (`time.Duration`): a count of nanoseconds. -/
abbrev Duration := Int

/-- The zero value of `time.Time`. -/
def zeroTime : Time := 0

/-- The constant `time.Second`. -/
def Second : Duration := 1000000000

/-- Largest duration, `1<<63 - 1` nanoseconds. -/
def maxDuration : Duration := 9223372036854775807

/-- Smallest duration, `-1 << 63` nanoseconds. -/
def minDuration : Duration := -9223372036854775808

/-- Model of `Time.Sub`: the difference `t - u`, replaced by the largest or
smallest duration when it does not fit. -/
def timeSub (t u : Time) : Duration :=
  if t - u > maxDuration then maxDuration
  else if t - u < minDuration then minDuration
  else t - u

/-- Model of `time.Since(t)`, the clock reading `now` being explicit. -/
def timeSince (now t : Time) : Duration := timeSub now t

/-- The variable `defaultDelay`. -/
def defaultDelay : Duration := 3 * Second

/-- Value of a decimal digit character, if it is one. -/
def digitValue (c : Char) : Option Nat :=
  if 48 ≤ c.toNat ∧ c.toNat ≤ 57 then some (c.toNat - 48) else Option.none

/-- Value of a non-empty string of decimal digits read after the value `acc`. -/
def leadingInt : List Char → Nat → Option Nat
  | [], acc => some acc
  | c :: s, acc =>
    match digitValue c with
    | some d => leadingInt s (10 * acc + d)
    | Option.none => Option.none

/-- The table `unitMap` of the `time` package, in nanoseconds. -/
def unitMap (u : List Char) : Option Nat :=
  if u = "ns".data then some 1
  else if u = "us".data then some 1000
  else if u = "µs".data then some 1000
  else if u = "μs".data then some 1000
  else if u = "ms".data then some 1000000
  else if u = "s".data then some 1000000000
  else if u = "m".data then some 60000000000
  else if u = "h".data then some 3600000000000
  else Option.none

/-- Whether a character is a decimal digit. -/
def isDigitChar (c : Char) : Bool := (digitValue c).isSome

/-- Model of `time.ParseDuration` on a fragment: an optional sign, then either
`0` alone or one decimal integer followed by one unit.  Several components
and fractions are outside the fragment and reported as errors. -/
def parseDuration (s : String) : Except String Duration :=
  let neg := s.data.head? = some '-'
  let body := if s.data.head? = some '-' ∨ s.data.head? = some '+' then s.data.tail else s.data
  if body = ['0'] then .ok 0
  else
    match leadingInt (body.takeWhile isDigitChar) 0, unitMap (body.dropWhile isDigitChar) with
    | some v, some u =>
      if body.takeWhile isDigitChar = [] then .error "time: invalid duration"
      else if v * u > 9223372036854775808 then .error "time: invalid duration"
      else if neg then .ok (-((v * u : Nat) : Int))
      else if v * u > 9223372036854775807 then .error "time: invalid duration"
      else .ok ((v * u : Nat) : Int)
    | _, _ => .error "time: invalid duration"

/-! ## The standard library as a parameter -/

/-- The functions of the Go standard library that the rule code calls. -/
structure GoLib where
  /-- the type `regexp.Regexp` -/
  Regexp : Type
  /-- the function `regexp.Compile` -/
  Compile : String → Except String Regexp
  /-- the method `(*Regexp).MatchString` -/
  MatchString : Regexp → String → Bool
  /-- the function `time.ParseDuration` -/
  ParseDuration : String → Except String Duration

/-- The concrete library made of the models above. -/
def goLib : GoLib where
  Regexp := Regexp
  Compile := regexpCompile
  MatchString := Regexp.MatchString
  ParseDuration := parseDuration

/-! ## String functions -/

/-- Model of `strings.Split(s, sep)` for a separator of one character, on the
list of characters: the pieces between consecutive separators. -/
def splitChars (sep : Char) : List Char → List (List Char)
  | [] => [[]]
  | c :: s =>
    if c = sep then [] :: splitChars sep s
    else
      match splitChars sep s with
      | [] => [[c]]
      | t :: ts => (c :: t) :: ts

/-- Model of `strings.Split(s, sep)` for a separator of one character. -/
def stringsSplit (s : String) (sep : Char) : List String :=
  (splitChars sep s.data).map String.mk

/-- Model of `strings.SplitN(s, sep, 2)` for a separator of one character, on
the list of characters: the text before the first separator and the text after
it, or the text alone when it holds no separator. -/
def splitChars2 (sep : Char) : List Char → List (List Char)
  | [] => [[]]
  | c :: s =>
    if c = sep then [[], s]
    else
      match splitChars2 sep s with
      | [] => [[c]]
      | t :: ts => (c :: t) :: ts

/-- Model of `strings.SplitN(s, sep, 2)` for a separator of one character. -/
def stringsSplitN2 (s : String) (sep : Char) : List String :=
  (splitChars2 sep s.data).map String.mk

/-! ## Rules -/

/-- The type `Event`, a `map[string]string`. -/
abbrev Event := AList (fun _ : String => String)

/-- Indexing `e[k]` of a Go map of strings: the zero value `""` when absent. -/
def Event.get (e : Event) (k : String) : String := (e.lookup k).getD ""

/-- The struct `Rule`, a rule as decoded from the configuration. -/
structure Rule where
  Name : String
  Env : AList (fun _ : String => String)
  Run : String
  Delay : String
  NoTimeout : Bool

/-- The struct `cRule`, a compiled rule. -/
structure cRule (L : GoLib) where
  lastRun : Time
  Name : String
  Env : AList (fun _ : String => L.Regexp)
  Run : String
  Delay : Duration
  NoTimeout : Bool

/-- The loop `for evar, val := range r.Env` of `Rule.Compile`: compiles the
patterns in the order of the entries into `env`, stopping at the first
error. -/
def compileEnv (L : GoLib) :
    List (Sigma fun _ : String => String) → AList (fun _ : String => L.Regexp) →
    Except String (AList (fun _ : String => L.Regexp))
  | [], env => .ok env
  | ⟨evar, val⟩ :: rest, env =>
    match L.Compile val with
    | .ok re => compileEnv L rest (env.insert evar re)
    | .error err => .error err

/-- The method `Rule.Compile`.  The partly filled `c` that the Go function
returns next to a non-nil error is not kept: its only caller discards it. -/
def Rule.Compile (L : GoLib) (r : Rule) : Except String (cRule L) :=
  match compileEnv L r.Env.entries ∅ with
  | .error err => .error err
  | .ok env =>
    if r.Delay ≠ "" then
      match L.ParseDuration r.Delay with
      | .error err => .error err
      | .ok d =>
        .ok { lastRun := zeroTime, Name := r.Name, Env := env, Run := r.Run, Delay := d,
              NoTimeout := r.NoTimeout }
    else
      .ok { lastRun := zeroTime, Name := r.Name, Env := env, Run := r.Run,
            Delay := defaultDelay, NoTimeout := r.NoTimeout }

/-- The method `cRule.Match`: the loop over `r.Env` folds `b && ...` from
`true`. -/
def cRule.Match {L : GoLib} (r : cRule L) (e : Event) : Bool :=
  r.Env.entries.foldl (fun b kv => b && L.MatchString kv.2 (e.get kv.1)) true

/-- The method `cRule.MustRun`, the clock reading `now` being explicit. -/
def cRule.MustRun {L : GoLib} (r : cRule L) (now : Time) : Bool :=
  r.Run != "" && decide (timeSince now r.lastRun > Second * 10)

/-- What `cmd.CombinedOutput()` returns: the output and the error, if any. -/
structure CmdResult where
  output : String
  err : Option String

/-- A command handed to `exec.CommandContext`: the argument vector (program
first) and the deadline of its context, `none` when it has none. -/
structure Cmd where
  args : List String
  timeout : Option Duration
  deriving DecidableEq, Repr

/-- The body of the goroutine of `cRule.RunCommand` once the delay has
elapsed.  `now` is the clock when `MustRun` is evaluated, `run` the outcome of
executing a command and `done` the clock when the command has completed.
The result is `none` if the body panics (indexing `cl[0]` out of range), and
otherwise the rule afterwards with the command that was executed, if any. -/
def cRule.RunCommand {L : GoLib} (r : cRule L) (now : Time) (run : Cmd → CmdResult)
    (done : Time) : Option (cRule L × Option Cmd) :=
  if r.MustRun now then
    let cl := stringsSplit r.Run ' '
    let timeout := if r.NoTimeout then Option.none else some (Second * 30)
    match cl with
    | [] => Option.none
    | name :: arg =>
      let cmd : Cmd := if cl.length > 1 then ⟨name :: arg, timeout⟩ else ⟨[name], timeout⟩
      match (run cmd).err with
      | Option.none => some ({ r with lastRun := done }, some cmd)
      | some _ => some (r, some cmd)
  else some (r, Option.none)

/-! ## The event source -/

/-- The variable `reVar`, compiled from its pattern (`MustCompile` panics at
start-up on an invalid pattern; the pattern is valid). -/
def reVar : Regexp :=
  match regexpCompile "^\\w+=.*" with
  | .ok r => r
  | .error _ => Regexp.none

/-- The scanning loop of `udevmon` on the lines delivered by the scanner, with
the entry being filled.  The result is the sequence of events sent on the
channel, or `none` if the loop panics (indexing `lsp` out of range). -/
def udevmonLoop : List String → Event → Option (List Event)
  | [], _ => some []
  | line :: rest, entry =>
    if line = "" then
      (udevmonLoop rest ∅).map (fun out => entry :: out)
    else if reVar.MatchString line then
      let lsp := stringsSplitN2 line '='
      match lsp[0]?, lsp[1]? with
      | some k, some v => udevmonLoop rest (entry.insert k v)
      | _, _ => Option.none
    else udevmonLoop rest entry

/-- The goroutine of `udevmon`: the loop started on an empty entry. -/
def udevmon (lines : List String) : Option (List Event) :=
  udevmonLoop lines ∅

/-! ## The engine -/

/-- The struct `Uudev`. -/
structure Uudev (L : GoLib) where
  Rules : List (cRule L)
  Debug : Bool

/-- The decoding loop of `LoadRules`: `docs` are the results of the successive
calls of `dec.Decode` before the one that reports `io.EOF`; the first error
is returned, otherwise the decoded rules in order. -/
def decodeAll : List (Except String Rule) → List Rule → Except String (List Rule)
  | [], rules => .ok rules
  | .error err :: _, _ => .error err
  | .ok rule :: rest, rules => decodeAll rest (rules ++ [rule])

/-- The compiling loop of `LoadRules`: each rule is compiled and appended to
`u.Rules`; the first error is returned at once. -/
def compileAll (L : GoLib) : List Rule → Uudev L → Uudev L × Option String
  | [], u => (u, Option.none)
  | r :: rest, u =>
    match r.Compile L with
    | .error err => (u, some err)
    | .ok cr => compileAll L rest { u with Rules := u.Rules ++ [cr] }

/-- The method `Uudev.LoadRules` on the results of the decoder: the state of
`u` after the call and the error returned. -/
def Uudev.LoadRules {L : GoLib} (u : Uudev L) (docs : List (Except String Rule)) :
    Uudev L × Option String :=
  match decodeAll docs [] with
  | .error err => (u, some err)
  | .ok rules => compileAll L rules u

/-- The inner loop of `Uudev.Run` for one event, from the rule of index `i`
on: the calls of `RunCommand` made, each as the index of its rule in
`u.Rules`, in the order of the calls. -/
def runRules {L : GoLib} (event : Event) : List (cRule L) → Nat → List Nat
  | [], _ => []
  | r :: rest, i =>
    if r.Match event then i :: runRules event rest (i + 1)
    else runRules event rest (i + 1)

/-- One iteration of the loop of `Uudev.Run`: the calls of `RunCommand` for
one event. -/
def Uudev.RunEvent {L : GoLib} (u : Uudev L) (event : Event) : List Nat :=
  runRules event u.Rules 0

/-- The method `Uudev.Run` on the events received from the channel: the calls
of `RunCommand`, event by event. -/
def Uudev.Run {L : GoLib} (u : Uudev L) (events : List Event) : List (List Nat) :=
  events.map u.RunEvent

/-! ## Definitions that follow the words of the specification -/

/-- Specification, parsing rule: the key of a line is the text before its
first `=`. -/
def specKey (line : String) : String :=
  String.mk (line.data.takeWhile (fun c => c != '='))

/-- Specification, parsing rule: the value of a line is everything after its
first `=`. -/
def specValue (line : String) : String :=
  String.mk ((line.data.dropWhile (fun c => c != '=')).drop 1)

/-- Specification, parsing rule: the blocks of lines that a blank line
terminates, in order; the lines after the last blank line are in no block. -/
def specBlocks (lines : List String) : List (List String) :=
  (lines.splitOn "").dropLast

/-- Specification, parsing rule: the value of the field `key` in the event of
a block is given by the last line of the block that matches `reVar` and has
that key, and the field is absent when there is no such line. -/
def specField (block : List String) (key : String) : Option String :=
  ((block.filter (fun l => reVar.MatchString l && specKey l == key)).getLast?).map specValue

/-- Whitespace characters: space, tab, newline, vertical tab, form feed and
carriage return. -/
def isSpaceChar (c : Char) : Bool :=
  c == ' ' || c == '\t' || c == '\n' || c == Char.ofNat 11 || c == Char.ofNat 12 || c == '\r'

/-- Specification, command execution: the whitespace-split of a command line,
that is its maximal runs of characters that are not whitespace, in order. -/
def specWhitespaceSplit (s : String) : List String :=
  ((s.data.splitOnP isSpaceChar).filter (fun t => !t.isEmpty)).map String.mk

/-- Successive dispatches of one rule, each running the body of `RunCommand`
to its end before the next starts: a dispatch is the clock at the guard, the
outcome of commands and the clock at completion.  The result is the rule
after the last dispatch, or `none` if a body panics. -/
def dispatchAll {L : GoLib} (r : cRule L) :
    List (Time × (Cmd → CmdResult) × Time) → Option (cRule L)
  | [] => some r
  | (now, run, done) :: rest =>
    match r.RunCommand now run done with
    | Option.none => Option.none
    | some (r2, _) => dispatchAll r2 rest

/-- Specification, data model: a record is invalid when a pattern of its env
does not compile or its delay is not empty and does not parse. -/
def Rule.Invalid (L : GoLib) (r : Rule) : Prop :=
  (∃ k p, r.Env.lookup k = some p ∧ ∃ err, L.Compile p = .error err) ∨
  (r.Delay ≠ "" ∧ ∃ err, L.ParseDuration r.Delay = .error err)

/-- Whether the rule of index `j` in a list of rules exists and matches the
event. -/
def matchesAt {L : GoLib} (rules : List (cRule L)) (event : Event) (j : Nat) : Bool :=
  match rules[j]? with
  | some r => r.Match event
  | Option.none => false

/-! ## The matcher computes the declarative meaning -/

namespace Regexp

theorem den_of_nullable (r : Regexp) (b e : Bool) (h : nullable b e r = true) : Den r b e [] := by
  induction r with
  | none => simp [nullable] at h
  | eps => exact Den.eps b e
  | cls k => simp [nullable] at h
  | beginText => simp [nullable] at h; subst h; exact Den.beginText e
  | endText => simp [nullable] at h; subst h; exact Den.endText b
  | cat r s ihr ihs =>
    simp [nullable] at h
    exact Den.cat r s b e [] [] [] rfl (by simpa using ihr h.1) (by simpa using ihs h.2)
  | alt r s ihr ihs =>
    simp [nullable] at h
    rcases h with h | h
    · exact Den.altL r s b e [] (ihr h)
    · exact Den.altR r s b e [] (ihs h)
  | star r _ => exact Den.starNil r b e

theorem nullable_of_den {r : Regexp} {b e : Bool} {w : List Char} (h : Den r b e w)
    (hw : w = []) : nullable b e r = true := by
  induction h with
  | eps b e => rfl
  | cls k c b e h => simp at hw
  | beginText e => rfl
  | endText b => rfl
  | cat r s b e u v w hw' hr hs ihr ihs =>
    subst hw'
    simp at hw
    obtain ⟨hu, hv⟩ := hw
    subst hu; subst hv
    simp at ihr ihs
    simp [nullable, ihr, ihs]
  | altL r s b e w hr ih => simp [nullable, ih hw]
  | altR r s b e w hs ih => simp [nullable, ih hw]
  | starNil r b e => rfl
  | starCons r b e u v w hw' hr hs ihr ihs => rfl

theorem nullable_iff (r : Regexp) (b e : Bool) : nullable b e r = true ↔ Den r b e [] :=
  ⟨den_of_nullable r b e, fun h => nullable_of_den h rfl⟩

theorem den_of_deriv (r : Regexp) (b e : Bool) (c : Char) (s : List Char)
    (h : Den (deriv b c r) false e s) : Den r b e (c :: s) := by
  induction r generalizing e s with
  | none => simp [deriv] at h; cases h
  | eps => simp [deriv] at h; cases h
  | cls k =>
    simp only [deriv] at h
    by_cases hk : k.test c = true
    · rw [if_pos hk] at h
      cases h
      exact Den.cls k c b e hk
    · rw [if_neg hk] at h
      cases h
  | beginText => simp [deriv] at h; cases h
  | endText => simp [deriv] at h; cases h
  | cat r1 r2 ih1 ih2 =>
    simp only [deriv] at h
    cases h with
    | altL _ _ _ _ _ hl =>
      cases hl with
      | cat _ _ _ _ u v _ hw hr hs =>
        subst hw
        have h1 := ih1 _ _ hr
        refine Den.cat r1 r2 b e (c :: u) v _ rfl h1 ?_
        simpa using hs
    | altR _ _ _ _ _ hr =>
      by_cases hn : nullable b false r1 = true
      · rw [if_pos hn] at hr
        have h2 := ih2 _ _ hr
        refine Den.cat r1 r2 b e [] (c :: s) _ rfl ?_ ?_
        · simpa using den_of_nullable r1 b false hn
        · simpa using h2
      · rw [if_neg hn] at hr
        cases hr
  | alt r1 r2 ih1 ih2 =>
    simp only [deriv] at h
    cases h with
    | altL _ _ _ _ _ hl => exact Den.altL _ _ _ _ _ (ih1 _ _ hl)
    | altR _ _ _ _ _ hr => exact Den.altR _ _ _ _ _ (ih2 _ _ hr)
  | star r ih =>
    simp only [deriv] at h
    cases h with
    | cat _ _ _ _ u v _ hw hr hs =>
      subst hw
      have h1 := ih _ _ hr
      refine Den.starCons r b e (c :: u) v _ rfl h1 ?_
      simpa using hs

theorem deriv_of_den {r : Regexp} {b e : Bool} {w : List Char} (h : Den r b e w)
    (c : Char) (s : List Char) (hw : w = c :: s) : Den (deriv b c r) false e s := by
  induction h generalizing c s with
  | eps b e => simp at hw
  | cls k c' b e h =>
    simp at hw
    obtain ⟨hc, hs⟩ := hw
    subst hc; subst hs
    simp only [deriv, h, if_true]
    exact Den.eps _ _
  | beginText e => simp at hw
  | endText b => simp at hw
  | cat r1 r2 b e u v w hw' hr hs ihr ihs =>
    subst hw'
    simp only [deriv]
    cases u with
    | nil =>
      simp at hw
      subst hw
      have hn : nullable b false r1 = true := nullable_of_den (by simpa using hr) rfl
      rw [if_pos hn]
      have h2 := ihs c s rfl
      exact Den.altR _ _ _ _ _ (by simpa using h2)
    | cons c' u' =>
      simp at hw
      obtain ⟨hc, hs'⟩ := hw
      subst hc; subst hs'
      refine Den.altL _ _ _ _ _ (Den.cat _ _ _ _ u' v _ rfl (ihr _ _ rfl) ?_)
      simpa using hs
  | altL r1 r2 b e w hr ih => simp only [deriv]; exact Den.altL _ _ _ _ _ (ih c s hw)
  | altR r1 r2 b e w hs ih => simp only [deriv]; exact Den.altR _ _ _ _ _ (ih c s hw)
  | starNil r b e => simp at hw
  | starCons r b e u v w hw' hr hs ihr ihs =>
    subst hw'
    cases u with
    | nil =>
      simp at hw
      subst hw
      have h2 := ihs c s rfl
      simpa using h2
    | cons c' u' =>
      simp at hw
      obtain ⟨hc, hs'⟩ := hw
      subst hc; subst hs'
      simp only [deriv]
      refine Den.cat _ _ _ _ u' v _ rfl (ihr _ _ rfl) ?_
      simpa using hs

theorem deriv_iff (r : Regexp) (b e : Bool) (c : Char) (s : List Char) :
    Den (deriv b c r) false e s ↔ Den r b e (c :: s) :=
  ⟨den_of_deriv r b e c s, fun h => deriv_of_den h c s rfl⟩

theorem matchFrom_iff (r : Regexp) (b : Bool) (s : List Char) :
    matchFrom b r s = true ↔ Den r b true s := by
  induction s generalizing r b with
  | nil => simp [matchFrom, nullable_iff]
  | cons c s ih => simp [matchFrom, ih, deriv_iff]

theorem den_star_all (b e : Bool) (s : List Char) : Den (star (cls .all)) b e s := by
  induction s generalizing b with
  | nil => exact Den.starNil _ _ _
  | cons c s ih =>
    exact Den.starCons _ b e [c] s _ rfl (Den.cls _ _ _ _ rfl) (ih _)

theorem MatchString_iff (r : Regexp) (s : String) :
    r.MatchString s = true ↔
      ∃ u v w, s.data = u ++ (v ++ w) ∧ Den r u.isEmpty w.isEmpty v := by
  unfold MatchString
  rw [matchFrom_iff]
  constructor
  · intro h
    cases h with
    | cat _ _ _ _ u vw _ hw h1 h2 =>
      cases h2 with
      | cat _ _ _ _ v w _ hw2 h3 h4 =>
        refine ⟨u, v, w, ?_, ?_⟩
        · rw [hw, hw2]
        · simpa using h3
  · rintro ⟨u, v, w, hs, h⟩
    refine Den.cat _ _ _ _ u (v ++ w) _ hs (den_star_all _ _ _) ?_
    refine Den.cat _ _ _ _ v w _ rfl ?_ (den_star_all _ _ _)
    simpa using h

end Regexp

namespace Regexp

theorem den_eps_iff (b e : Bool) (w : List Char) : Den eps b e w ↔ w = [] := by
  constructor
  · intro h; cases h; rfl
  · intro h; subst h; exact Den.eps b e

theorem den_cls_iff (k : CharClass) (b e : Bool) (w : List Char) :
    Den (cls k) b e w ↔ ∃ c, w = [c] ∧ k.test c = true := by
  constructor
  · intro h; cases h with
    | cls _ c _ _ hc => exact ⟨c, rfl, hc⟩
  · rintro ⟨c, hw, hc⟩; subst hw; exact Den.cls k c b e hc

theorem den_beginText_iff (b e : Bool) (w : List Char) :
    Den beginText b e w ↔ w = [] ∧ b = true := by
  constructor
  · intro h
    generalize hr : beginText = r at h
    cases h <;> first | exact ⟨rfl, rfl⟩ | cases hr
  · rintro ⟨hw, hb⟩; subst hw; subst hb; exact Den.beginText e

theorem den_endText_iff (b e : Bool) (w : List Char) :
    Den endText b e w ↔ w = [] ∧ e = true := by
  constructor
  · intro h
    generalize hr : endText = r at h
    cases h <;> first | exact ⟨rfl, rfl⟩ | cases hr
  · rintro ⟨hw, he⟩; subst hw; subst he; exact Den.endText b

theorem den_cat_iff (r s : Regexp) (b e : Bool) (w : List Char) :
    Den (cat r s) b e w ↔
      ∃ u v, w = u ++ v ∧ Den r b (e && v.isEmpty) u ∧ Den s (b && u.isEmpty) e v := by
  constructor
  · intro h; cases h with
    | cat _ _ _ _ u v _ hw hr hs => exact ⟨u, v, hw, hr, hs⟩
  · rintro ⟨u, v, hw, hr, hs⟩; exact Den.cat r s b e u v w hw hr hs

theorem den_star_cls_iff (k : CharClass) (b e : Bool) (w : List Char) :
    Den (star (cls k)) b e w ↔ ∀ c ∈ w, k.test c = true := by
  constructor
  · intro h
    generalize hr : star (cls k) = r at h
    induction h with
    | starNil r b e => simp
    | starCons r b e u v w hw h1 h2 ih1 ih2 =>
      cases hr
      subst hw
      rw [den_cls_iff] at h1
      obtain ⟨c, hu, hc⟩ := h1
      subst hu
      intro d hd
      simp at hd
      rcases hd with hd | hd
      · subst hd; exact hc
      · exact ih2 rfl d hd
    | _ => cases hr
  · intro h
    induction w generalizing b with
    | nil => exact Den.starNil _ _ _
    | cons c s ih =>
      exact Den.starCons _ b e [c] s _ rfl (Den.cls _ _ _ _ (h c (by simp)))
        (ih _ (fun d hd => h d (by simp [hd])))

end Regexp

theorem reVar_eq :
    reVar = .cat .beginText (.cat (.cat (.cls .word) (.star (.cls .word)))
      (.cat (.cls (.lit '=')) (.cat (.star (.cls .dot)) .eps))) := by
  decide

/-- The lines that `reVar` matches: one or more word characters, then `=`. -/
theorem reVar_MatchString_iff (line : String) :
    reVar.MatchString line = true ↔
      ∃ w rest, line.data = w ++ '=' :: rest ∧ w ≠ [] ∧ ∀ c ∈ w, isWordChar c = true := by
  rw [Regexp.MatchString_iff, reVar_eq]
  constructor
  · rintro ⟨u, v, w, hs, h⟩
    simp only [Regexp.den_cat_iff, Regexp.den_beginText_iff, Regexp.den_cls_iff,
      Regexp.den_star_cls_iff, Regexp.den_eps_iff] at h
    obtain ⟨v1, v2, hv, ⟨hv1, hu⟩, p, q, hv2, ⟨p1, p2, hp, ⟨c, hp1, hc⟩, hp2⟩,
      q1, q2, hq, ⟨d, hq1, hd⟩, _⟩ := h
    simp at hu
    subst hv1 hu hp1 hq1 hp hq hv2 hv
    simp [CharClass.test] at hd
    subst hd
    refine ⟨c :: p2, q2 ++ w, by simp [hs], by simp, ?_⟩
    intro x hx
    simp at hx
    rcases hx with hx | hx
    · subst hx; exact hc
    · exact hp2 x hx
  · rintro ⟨w, rest, hs, hne, hw⟩
    cases w with
    | nil => exact absurd rfl hne
    | cons c w' =>
      refine ⟨[], c :: w' ++ ['='], rest, by simp [hs], ?_⟩
      simp only [Regexp.den_cat_iff, Regexp.den_beginText_iff, Regexp.den_cls_iff,
        Regexp.den_star_cls_iff, Regexp.den_eps_iff]
      refine ⟨[], c :: w' ++ ['='], rfl, ⟨rfl, rfl⟩, c :: w', ['='], rfl,
        ⟨[c], w', rfl, ⟨c, rfl, hw c (by simp)⟩, fun x hx => hw x (by simp [hx])⟩,
        ['='], [], rfl, ⟨'=', rfl, by simp [CharClass.test]⟩, [], [], rfl, by simp, rfl⟩

/-! ## The event source -/

theorem splitChars2_of_mem (sep : Char) (l : List Char) (h : sep ∈ l) :
    splitChars2 sep l =
      [l.takeWhile (fun c => c != sep), (l.dropWhile (fun c => c != sep)).drop 1] := by
  induction l with
  | nil => simp at h
  | cons c s ih =>
    by_cases hc : c = sep
    · subst hc
      simp [splitChars2]
    · have hs : sep ∈ s := by
        simp at h
        rcases h with h | h
        · exact absurd h.symm hc
        · exact h
      simp [splitChars2, hc, ih hs]

theorem isWordChar_eq_false : isWordChar '=' = false := by decide

theorem stringsSplitN2_of_match (line : String) (h : reVar.MatchString line = true) :
    stringsSplitN2 line '=' = [specKey line, specValue line] := by
  rw [reVar_MatchString_iff] at h
  obtain ⟨w, rest, hl, _, _⟩ := h
  have hmem : '=' ∈ line.data := by rw [hl]; simp
  simp [stringsSplitN2, splitChars2_of_mem _ _ hmem, specKey, specValue]

theorem specBlocks_of_not_mem (pre : List String) (h : "" ∉ pre) : specBlocks pre = [] := by
  have h1 : pre.splitOn "" = [pre] := by
    unfold List.splitOn
    apply List.splitOnP_eq_single
    intro x hx
    simp
    rintro rfl
    exact h hx
  simp [specBlocks, h1]

theorem specBlocks_append_blank (pre rest : List String) (h : "" ∉ pre) :
    specBlocks (pre ++ "" :: rest) = pre :: specBlocks rest := by
  have h1 : (pre ++ "" :: rest).splitOn "" = pre :: rest.splitOn "" := by
    unfold List.splitOn
    apply List.splitOnP_first
    · intro x hx
      simp
      rintro rfl
      exact h hx
    · simp
  have h2 : rest.splitOn "" ≠ [] := List.splitOnP_ne_nil _ _
  simp [specBlocks, h1, List.dropLast_cons_of_ne_nil h2]

theorem specField_append_match (pre : List String) (line key : String)
    (h : reVar.MatchString line = true) :
    specField (pre ++ [line]) key =
      if key = specKey line then some (specValue line) else specField pre key := by
  unfold specField
  by_cases hk : key = specKey line
  · subst hk
    simp [List.filter_append, h]
  · have hk2 : (specKey line == key) = false := by
      simp
      exact fun h => hk h.symm
    simp [List.filter_append, h, hk, hk2]

theorem specField_append_skip (pre : List String) (line key : String)
    (h : reVar.MatchString line = false) :
    specField (pre ++ [line]) key = specField pre key := by
  simp [specField, List.filter_append, h]

theorem lookup_insert_eq (entry : Event) (k v key : String) :
    (entry.insert k v).lookup key = if key = k then some v else entry.lookup key := by
  by_cases hk : key = k
  · subst hk; simp
  · simp [hk, AList.lookup_insert_ne hk]

theorem udevmonLoop_cons_blank (rest : List String) (entry : Event) :
    udevmonLoop ("" :: rest) entry = (udevmonLoop rest ∅).map (fun out => entry :: out) := by
  simp [udevmonLoop]

theorem udevmonLoop_cons_match (line : String) (rest : List String) (entry : Event)
    (hne : line ≠ "") (h : reVar.MatchString line = true) :
    udevmonLoop (line :: rest) entry =
      udevmonLoop rest (entry.insert (specKey line) (specValue line)) := by
  simp [udevmonLoop, hne, h, stringsSplitN2_of_match line h]

theorem udevmonLoop_cons_skip (line : String) (rest : List String) (entry : Event)
    (hne : line ≠ "") (h : reVar.MatchString line = false) :
    udevmonLoop (line :: rest) entry = udevmonLoop rest entry := by
  simp [udevmonLoop, hne, h]

theorem udevmonLoop_spec (lines : List String) (entry : Event) (pre : List String)
    (hpre : "" ∉ pre) (hentry : ∀ key, entry.lookup key = specField pre key) :
    ∃ evs, udevmonLoop lines entry = some evs ∧ evs.length = lines.count "" ∧
      List.Forall₂ (fun ev blk => ∀ key, ev.lookup key = specField blk key) evs
        (specBlocks (pre ++ lines)) := by
  induction lines generalizing entry pre with
  | nil =>
    refine ⟨[], rfl, rfl, ?_⟩
    simp [specBlocks_of_not_mem pre hpre]
  | cons line rest ih =>
    by_cases hl : line = ""
    · subst hl
      obtain ⟨evs, h1, h2, h3⟩ := ih ∅ [] (by simp) (by intro key; simp [specField])
      refine ⟨entry :: evs, by simp [udevmonLoop_cons_blank, h1], by simp [h2], ?_⟩
      rw [specBlocks_append_blank pre rest hpre]
      exact List.Forall₂.cons hentry (by simpa using h3)
    · have hpre2 : "" ∉ pre ++ [line] := by
        simp
        exact ⟨hpre, fun h => hl h.symm⟩
      have hcount : (line :: rest).count "" = rest.count "" := by
        rw [List.count_cons_of_ne (Ne.symm hl)]
      by_cases hm : reVar.MatchString line = true
      · obtain ⟨evs, h1, h2, h3⟩ :=
          ih (entry.insert (specKey line) (specValue line)) (pre ++ [line]) hpre2 (by
            intro key
            rw [lookup_insert_eq, specField_append_match pre line key hm, hentry])
        refine ⟨evs, by rw [udevmonLoop_cons_match line rest entry hl hm, h1], by
          rw [h2, hcount], by simpa using h3⟩
      · have hm2 : reVar.MatchString line = false := by simpa using hm
        obtain ⟨evs, h1, h2, h3⟩ :=
          ih entry (pre ++ [line]) hpre2 (by
            intro key
            rw [specField_append_skip pre line key hm2, hentry])
        refine ⟨evs, by rw [udevmonLoop_cons_skip line rest entry hl hm2, h1], by
          rw [h2, hcount], by simpa using h3⟩

theorem udevmonLoop_drop_line (pre post : List String) (l : String) (entry : Event)
    (hne : l ≠ "") (h : reVar.MatchString l = false) :
    udevmonLoop (pre ++ l :: post) entry = udevmonLoop (pre ++ post) entry := by
  induction pre generalizing entry with
  | nil => simpa using udevmonLoop_cons_skip l post entry hne h
  | cons x xs ih =>
    by_cases hx : x = ""
    · subst hx
      simp [udevmonLoop_cons_blank, ih]
    · by_cases hm : reVar.MatchString x = true
      · simp [udevmonLoop_cons_match x _ _ hx hm, ih]
      · have hm2 : reVar.MatchString x = false := by simpa using hm
        simp [udevmonLoop_cons_skip x _ _ hx hm2, ih]

theorem udevmonLoop_no_blank (tail : List String) (entry : Event) (h : "" ∉ tail) :
    udevmonLoop tail entry = some [] := by
  induction tail generalizing entry with
  | nil => rfl
  | cons x xs ih =>
    simp at h
    have hx : x ≠ "" := fun hx => h.1 hx.symm
    by_cases hm : reVar.MatchString x = true
    · rw [udevmonLoop_cons_match x _ _ hx hm, ih _ h.2]
    · have hm2 : reVar.MatchString x = false := by simpa using hm
      rw [udevmonLoop_cons_skip x _ _ hx hm2, ih _ h.2]

theorem udevmonLoop_append_tail (lines tail : List String) (entry : Event) (h : "" ∉ tail) :
    udevmonLoop (lines ++ tail) entry = udevmonLoop lines entry := by
  induction lines generalizing entry with
  | nil => simp [udevmonLoop_no_blank tail entry h, udevmonLoop]
  | cons x xs ih =>
    by_cases hx : x = ""
    · subst hx
      simp [udevmonLoop_cons_blank, ih]
    · by_cases hm : reVar.MatchString x = true
      · simp [udevmonLoop_cons_match x _ _ hx hm, ih]
      · have hm2 : reVar.MatchString x = false := by simpa using hm
        simp [udevmonLoop_cons_skip x _ _ hx hm2, ih]

/-- C3: the parsing loop of `udevmon` never panics and emits one event per
blank line, in order; the fields of the k-th event are those of the lines of
the k-th block that match `reVar` (key before the first `=`, value after it,
the last line of a key winning); a non-blank line that does not match changes
nothing, a blank line first emits the entry as it is (empty at the start),
and the lines after the last blank line are not emitted.  A line matches
`reVar` iff it starts with one or more word characters followed by `=`.  The
lines `A=1`, `B=2`, blank, `C=3`, blank give the events with `A=1, B=2` and
with `C=3`. -/
theorem C3_udevmon_events (lines : List String) :
    (∃ evs, udevmon lines = some evs ∧ evs.length = lines.count "" ∧
      List.Forall₂ (fun ev blk => ∀ key, ev.lookup key = specField blk key) evs
        (specBlocks lines)) ∧
    (∀ pre post l, lines = pre ++ l :: post → l ≠ "" → reVar.MatchString l = false →
      udevmon lines = udevmon (pre ++ post)) ∧
    udevmon ("" :: lines) = (udevmon lines).map (fun out => ∅ :: out) ∧
    (∀ tail, "" ∉ tail → udevmon (lines ++ tail) = udevmon lines) ∧
    (∀ l : String, reVar.MatchString l = true ↔
      ∃ w rest, l.data = w ++ '=' :: rest ∧ w ≠ [] ∧ ∀ c ∈ w, isWordChar c = true) ∧
    udevmon ["A=1", "B=2", "", "C=3", ""] =
      some [AList.insert "B" "2" (AList.insert "A" "1" ∅), AList.insert "C" "3" ∅] := by
  refine ⟨?_, ?_, ?_, ?_, reVar_MatchString_iff, by rfl⟩
  · simpa using udevmonLoop_spec lines ∅ [] (by simp) (by intro key; simp [specField])
  · rintro pre post l rfl hne hm
    exact udevmonLoop_drop_line pre post l ∅ hne hm
  · exact udevmonLoop_cons_blank lines ∅
  · intro tail ht
    exact udevmonLoop_append_tail lines tail ∅ ht

/-- C3 at the lines `A=1`, `junk`, blank: the line `junk` is dropped, and a
line `B=2` after the blank line is not emitted. -/
theorem C3_udevmon_events_witness :
    udevmon ["A=1", "junk", ""] = udevmon (["A=1"] ++ [""]) ∧
    udevmon (["A=1", "junk", ""] ++ ["B=2"]) = udevmon ["A=1", "junk", ""] :=
  ⟨(C3_udevmon_events ["A=1", "junk", ""]).2.1 ["A=1"] [""] "junk" rfl (by decide) (by decide),
   (C3_udevmon_events ["A=1", "junk", ""]).2.2.2.1 ["B=2"] (by decide)⟩

/-! ## Matching -/

theorem foldl_and_eq {α : Type} (f : α → Bool) (l : List α) (init : Bool) :
    l.foldl (fun b x => b && f x) init = (init && l.all f) := by
  induction l generalizing init with
  | nil => simp
  | cons x xs ih => simp [ih, Bool.and_assoc]

theorem all_congr_of_mem {α : Type} (f g : α → Bool) (l : List α)
    (h : ∀ x ∈ l, f x = g x) : l.all f = l.all g := by
  induction l with
  | nil => rfl
  | cons x xs ih =>
    simp only [List.all_cons]
    rw [h x (by simp), ih (fun y hy => h y (by simp [hy]))]

theorem cRule.Match_eq_all {L : GoLib} (r : cRule L) (e : Event) :
    r.Match e = r.Env.entries.all (fun kv => L.MatchString kv.2 (e.get kv.1)) := by
  simp [cRule.Match, foldl_and_eq]

theorem cRule.Match_iff {L : GoLib} (r : cRule L) (e : Event) :
    r.Match e = true ↔
      ∀ k re, r.Env.lookup k = some re → L.MatchString re (e.get k) = true := by
  rw [cRule.Match_eq_all, List.all_eq_true]
  constructor
  · intro h k re hk
    have hmem : (⟨k, re⟩ : Sigma fun _ : String => L.Regexp) ∈ r.Env.entries :=
      AList.mem_lookup_iff.mp hk
    exact h _ hmem
  · rintro h ⟨k, re⟩ hmem
    exact h k re (AList.mem_lookup_iff.mpr hmem)

/-- C1: a compiled rule matches an event iff each regex of its `Env` matches
the value of the event for its key, an absent key being read as the empty
string; a rule with an empty `Env` matches every event, and the result only
depends on the values of the event at the keys of `Env`. -/
theorem C1_match_iff_all_env (L : GoLib) (r : cRule L) (e : Event) :
    (r.Match e = true ↔
      ∀ k re, r.Env.lookup k = some re → L.MatchString re (e.get k) = true) ∧
    (∀ k, e.lookup k = none → e.get k = "") ∧
    (r.Env.entries = [] → r.Match e = true) ∧
    (∀ e2 : Event, (∀ k ∈ r.Env.keys, e2.get k = e.get k) → r.Match e2 = r.Match e) := by
  refine ⟨cRule.Match_iff r e, ?_, ?_, ?_⟩
  · intro k hk
    simp [Event.get, hk]
  · intro h
    simp [cRule.Match, h]
  · intro e2 h
    rw [cRule.Match_eq_all, cRule.Match_eq_all]
    apply all_congr_of_mem
    rintro ⟨k, re⟩ hmem
    have hk : k ∈ r.Env.keys := by
      simp only [AList.keys, List.keys, List.mem_map]
      exact ⟨⟨k, re⟩, hmem, rfl⟩
    simp [h k hk]

/-- C1 at a rule with an empty `Env` and at a rule on the key `SUBSYSTEM`
(model library), on events that differ at the key `ACTION` only. -/
theorem C1_match_iff_all_env_witness :
    (∀ k, (AList.insert "ACTION" "add" ∅ : Event).lookup k = none →
      Event.get (AList.insert "ACTION" "add" ∅) k = "") ∧
    cRule.Match (L := goLib) ⟨0, "r", ∅, "", 0, false⟩ (AList.insert "ACTION" "add" ∅) = true ∧
    cRule.Match (L := goLib)
        ⟨0, "r", AList.insert "SUBSYSTEM" (Regexp.cls (.lit 'u')) ∅, "", 0, false⟩
        (AList.insert "ACTION" "remove" ∅) =
      cRule.Match (L := goLib)
        ⟨0, "r", AList.insert "SUBSYSTEM" (Regexp.cls (.lit 'u')) ∅, "", 0, false⟩
        (AList.insert "ACTION" "add" ∅) :=
  ⟨(C1_match_iff_all_env goLib ⟨0, "r", ∅, "", 0, false⟩ (AList.insert "ACTION" "add" ∅)).2.1,
   (C1_match_iff_all_env goLib ⟨0, "r", ∅, "", 0, false⟩
      (AList.insert "ACTION" "add" ∅)).2.2.1 rfl,
   (C1_match_iff_all_env goLib
      ⟨0, "r", AList.insert "SUBSYSTEM" (Regexp.cls (.lit 'u')) ∅, "", 0, false⟩
      (AList.insert "ACTION" "add" ∅)).2.2.2 (AList.insert "ACTION" "remove" ∅) (by decide)⟩

/-! ## The cooldown guard -/

theorem timeSince_gt_iff (now t : Time) :
    timeSince now t > Second * 10 ↔ now - t > Second * 10 := by
  unfold timeSince timeSub maxDuration minDuration Second
  unfold Duration Time at *
  split_ifs <;> omega

theorem cRule.MustRun_iff {L : GoLib} (r : cRule L) (now : Time) :
    r.MustRun now = true ↔ r.Run ≠ "" ∧ now - r.lastRun > Second * 10 := by
  simp [cRule.MustRun, timeSince_gt_iff]

/-- C2: `MustRun` is true iff `Run` is not empty and strictly more than 10
seconds have elapsed since `lastRun`; so it is false with zero or exactly 10
seconds elapsed, true with more and a non-empty `Run`, and false with an
empty `Run` whatever the elapsed time. -/
theorem C2_mustRun_iff_elapsed (L : GoLib) (r : cRule L) (now : Time) :
    (r.MustRun now = true ↔ r.Run ≠ "" ∧ now - r.lastRun > 10 * Second) ∧
    (now - r.lastRun = 0 → r.MustRun now = false) ∧
    (now - r.lastRun = 10 * Second → r.MustRun now = false) ∧
    (r.Run ≠ "" → now - r.lastRun > 10 * Second → r.MustRun now = true) ∧
    (r.Run = "" → r.MustRun now = false) := by
  have key := cRule.MustRun_iff r now
  rw [mul_comm] at key
  refine ⟨key, ?_, ?_, ?_, ?_⟩
  · intro h
    rw [← Bool.not_eq_true, key, h]
    simp [Second]
  · intro h
    rw [← Bool.not_eq_true, key, h]
    simp
  · intro h1 h2
    exact key.mpr ⟨h1, h2⟩
  · intro h
    rw [← Bool.not_eq_true, key]
    simp [h]

/-- C2 at rules last run at time 5 s: now 5 s, 15 s and 16 s, and an empty
`Run`. -/
theorem C2_mustRun_iff_elapsed_witness :
    cRule.MustRun (L := goLib) ⟨5000000000, "r", ∅, "/usr/bin/true", 0, false⟩ 5000000000
      = false ∧
    cRule.MustRun (L := goLib) ⟨5000000000, "r", ∅, "/usr/bin/true", 0, false⟩ 15000000000
      = false ∧
    cRule.MustRun (L := goLib) ⟨5000000000, "r", ∅, "/usr/bin/true", 0, false⟩ 16000000000
      = true ∧
    cRule.MustRun (L := goLib) ⟨5000000000, "r", ∅, "", 0, false⟩ 16000000000 = false :=
  ⟨(C2_mustRun_iff_elapsed goLib ⟨5000000000, "r", ∅, "/usr/bin/true", 0, false⟩
      5000000000).2.1 (by decide),
   (C2_mustRun_iff_elapsed goLib ⟨5000000000, "r", ∅, "/usr/bin/true", 0, false⟩
      15000000000).2.2.1 (by decide),
   (C2_mustRun_iff_elapsed goLib ⟨5000000000, "r", ∅, "/usr/bin/true", 0, false⟩
      16000000000).2.2.2.1 (by decide) (by decide),
   (C2_mustRun_iff_elapsed goLib ⟨5000000000, "r", ∅, "", 0, false⟩
      16000000000).2.2.2.2 (by decide)⟩

/-! ## Dispatch -/

theorem splitChars_ne_nil (sep : Char) (l : List Char) : splitChars sep l ≠ [] := by
  induction l with
  | nil => simp [splitChars]
  | cons c s ih =>
    by_cases hc : c = sep
    · simp [splitChars, hc]
    · cases hs : splitChars sep s with
      | nil => exact absurd hs ih
      | cons t ts => simp [splitChars, hc, hs]

theorem splitChars_eq_splitOn (sep : Char) (l : List Char) :
    splitChars sep l = l.splitOn sep := by
  unfold List.splitOn
  induction l with
  | nil => simp [splitChars]
  | cons c s ih =>
    rw [List.splitOnP_cons]
    by_cases hc : c = sep
    · simp [splitChars, hc, ← ih]
    · cases hs : splitChars sep s with
      | nil => exact absurd hs (splitChars_ne_nil sep s)
      | cons t ts =>
        rw [← ih, hs]
        simp [splitChars, hc, hs]

theorem splitChars_intercalate (sep : Char) (l : List Char) :
    List.intercalate [sep] (splitChars sep l) = l := by
  rw [splitChars_eq_splitOn]
  exact List.intercalate_splitOn l sep

theorem splitChars_not_mem (sep : Char) (l : List Char) :
    ∀ t ∈ splitChars sep l, sep ∉ t := by
  induction l with
  | nil => simp [splitChars]
  | cons c s ih =>
    by_cases hc : c = sep
    · intro t ht
      simp [splitChars, hc] at ht
      rcases ht with ht | ht
      · subst ht; simp
      · exact ih t ht
    · cases hs : splitChars sep s with
      | nil => exact absurd hs (splitChars_ne_nil sep s)
      | cons t ts =>
        rw [hs] at ih
        intro x hx
        simp [splitChars, hc, hs] at hx
        rcases hx with hx | hx
        · subst hx
          have := ih t (by simp)
          simp
          exact ⟨fun h => hc h.symm, this⟩
        · exact ih x (by simp [hx])

theorem splitChars_length (sep : Char) (l : List Char) :
    (splitChars sep l).length = l.count sep + 1 := by
  induction l with
  | nil => simp [splitChars]
  | cons c s ih =>
    by_cases hc : c = sep
    · simp [splitChars, hc, ih]
    · cases hs : splitChars sep s with
      | nil => exact absurd hs (splitChars_ne_nil sep s)
      | cons t ts =>
        rw [hs] at ih
        simp [splitChars, hc, hs, List.count_cons_of_ne (Ne.symm hc)] at ih ⊢
        exact ih

/-- The command that `RunCommand` builds for a rule. -/
theorem cRule.RunCommand_of_mustRun {L : GoLib} (r : cRule L) (now done : Time)
    (run : Cmd → CmdResult) (h : r.MustRun now = true) :
    r.RunCommand now run done =
      some (match (run ⟨stringsSplit r.Run ' ',
                if r.NoTimeout then Option.none else some (Second * 30)⟩).err with
            | Option.none => { r with lastRun := done }
            | some _ => r,
            some ⟨stringsSplit r.Run ' ',
              if r.NoTimeout then Option.none else some (Second * 30)⟩) := by
  unfold cRule.RunCommand
  rw [if_pos h]
  cases hs : stringsSplit r.Run ' ' with
  | nil =>
    simp [stringsSplit] at hs
    exact absurd hs (splitChars_ne_nil _ _)
  | cons name arg =>
    cases arg with
    | nil =>
      simp only [List.length_singleton, gt_iff_lt, lt_self_iff_false, if_false]
      cases (run ⟨[name], if r.NoTimeout then Option.none else some (Second * 30)⟩).err <;> rfl
    | cons a as =>
      have hlen : (name :: a :: as).length > 1 := by simp
      simp only [hlen, if_true]
      cases (run ⟨name :: a :: as,
        if r.NoTimeout then Option.none else some (Second * 30)⟩).err <;> rfl

theorem cRule.RunCommand_of_not_mustRun {L : GoLib} (r : cRule L) (now done : Time)
    (run : Cmd → CmdResult) (h : r.MustRun now = false) :
    r.RunCommand now run done = some (r, Option.none) := by
  unfold cRule.RunCommand
  simp [h]

/-- C4: one dispatch of a rule never panics; if `MustRun` is false no command
is executed and the rule is unchanged; if it is true exactly one command is
executed, `lastRun` becomes the time of completion when the command returns no
error and is left as it was when the command fails; no other field of the
rule changes. -/
theorem C4_runCommand_lastRun (L : GoLib) (r : cRule L) (now done : Time)
    (run : Cmd → CmdResult) :
    ∃ r2 cmd, r.RunCommand now run done = some (r2, cmd) ∧
      (r.MustRun now = false → cmd = Option.none ∧ r2 = r) ∧
      (r.MustRun now = true → ∃ c, cmd = some c ∧
        ((run c).err = Option.none → r2.lastRun = done) ∧
        ((run c).err ≠ Option.none → r2 = r)) ∧
      r2.Name = r.Name ∧ r2.Env = r.Env ∧ r2.Run = r.Run ∧ r2.Delay = r.Delay ∧
      r2.NoTimeout = r.NoTimeout := by
  by_cases h : r.MustRun now = true
  · rw [cRule.RunCommand_of_mustRun r now done run h]
    refine ⟨_, _, rfl, ?_, ?_, ?_⟩
    · intro h2; rw [h] at h2; cases h2
    · intro _
      refine ⟨_, rfl, ?_, ?_⟩
      · intro he; rw [he]
      · intro he
        cases hrun : (run ⟨stringsSplit r.Run ' ',
            if r.NoTimeout then Option.none else some (Second * 30)⟩).err with
        | none => exact absurd hrun he
        | some _ => rfl
    · cases (run ⟨stringsSplit r.Run ' ',
          if r.NoTimeout then Option.none else some (Second * 30)⟩).err <;> simp
  · have h2 : r.MustRun now = false := by simpa using h
    rw [cRule.RunCommand_of_not_mustRun r now done run h2]
    exact ⟨_, _, rfl, fun _ => ⟨rfl, rfl⟩, fun h3 => absurd h3 h, rfl, rfl, rfl, rfl, rfl⟩

/-! ## Compilation of rules -/

theorem compileEnv_error_iff (L : GoLib) (entries : List (Sigma fun _ : String => String))
    (env : AList (fun _ : String => L.Regexp)) :
    (∃ err, compileEnv L entries env = .error err) ↔
      ∃ kv ∈ entries, ∃ err, L.Compile kv.2 = .error err := by
  induction entries generalizing env with
  | nil => simp [compileEnv]
  | cons kv rest ih =>
    obtain ⟨k, p⟩ := kv
    cases hc : L.Compile p with
    | error e =>
      simp only [compileEnv, hc]
      constructor
      · intro _
        exact ⟨⟨k, p⟩, by simp, e, hc⟩
      · intro _
        exact ⟨e, rfl⟩
    | ok re =>
      simp only [compileEnv, hc]
      rw [ih]
      constructor
      · rintro ⟨kv, hmem, e, he⟩
        exact ⟨kv, by simp [hmem], e, he⟩
      · rintro ⟨kv, hmem, e, he⟩
        simp at hmem
        rcases hmem with hmem | hmem
        · subst hmem
          rw [hc] at he
          cases he
        · exact ⟨kv, hmem, e, he⟩

theorem compileEnv_ok_lookup (L : GoLib) (entries : List (Sigma fun _ : String => String))
    (hnd : entries.NodupKeys) (env env2 : AList (fun _ : String => L.Regexp))
    (h : compileEnv L entries env = .ok env2) (k : String) :
    (env2.lookup k).map Except.ok =
      match List.dlookup k entries with
      | some p => some (L.Compile p)
      | Option.none => (env.lookup k).map Except.ok := by
  induction entries generalizing env with
  | nil =>
    simp only [compileEnv] at h
    cases h
    simp
  | cons kv rest ih =>
    obtain ⟨k0, p0⟩ := kv
    rw [List.nodupKeys_cons] at hnd
    cases hc : L.Compile p0 with
    | error e => simp [compileEnv, hc] at h
    | ok re =>
      simp only [compileEnv, hc] at h
      rw [ih hnd.2 _ h]
      by_cases hk : k = k0
      · subst hk
        have hnone : List.dlookup k rest = Option.none := by
          rw [List.dlookup_eq_none]
          exact hnd.1
        simp [hnone, hc]
      · have hk2 : k0 ≠ k := fun h => hk h.symm
        rw [List.dlookup_cons_ne rest ⟨k0, p0⟩ hk]
        cases List.dlookup k rest with
        | none => simp [AList.lookup_insert_ne hk]
        | some p => rfl

/-- When `Compile` fails: a pattern of `Env` does not compile, or the delay is
not empty and does not parse. -/
theorem Rule.Compile_error_iff (L : GoLib) (spec : Rule) :
    (∃ err, spec.Compile L = .error err) ↔
      ((∃ k p, spec.Env.lookup k = some p ∧ ∃ err, L.Compile p = .error err) ∨
       (spec.Delay ≠ "" ∧ ∃ err, L.ParseDuration spec.Delay = .error err)) := by
  have hmem : (∃ kv ∈ spec.Env.entries, ∃ err, L.Compile kv.2 = .error err) ↔
      ∃ k p, spec.Env.lookup k = some p ∧ ∃ err, L.Compile p = .error err := by
    constructor
    · rintro ⟨⟨k, p⟩, hkv, e, he⟩
      exact ⟨k, p, AList.mem_lookup_iff.mpr hkv, e, he⟩
    · rintro ⟨k, p, hkp, e, he⟩
      exact ⟨⟨k, p⟩, AList.mem_lookup_iff.mp hkp, e, he⟩
  rw [← hmem, ← compileEnv_error_iff L spec.Env.entries ∅]
  unfold Rule.Compile
  cases henv : compileEnv L spec.Env.entries ∅ with
  | error e => simp
  | ok env =>
    by_cases hd : spec.Delay = ""
    · simp [hd]
    · cases hp : L.ParseDuration spec.Delay with
      | error e => simp [hd]
      | ok d => simp [hd]

/-- What `Compile` returns when it succeeds. -/
theorem Rule.Compile_ok (L : GoLib) (spec : Rule) (c : cRule L)
    (h : spec.Compile L = .ok c) :
    c.Name = spec.Name ∧ c.Run = spec.Run ∧ c.NoTimeout = spec.NoTimeout ∧
    (∀ k, (c.Env.lookup k).map Except.ok = (spec.Env.lookup k).map L.Compile) ∧
    (spec.Delay = "" → c.Delay = 3 * Second) ∧
    (spec.Delay ≠ "" → L.ParseDuration spec.Delay = .ok c.Delay) ∧
    c.lastRun = zeroTime := by
  unfold Rule.Compile at h
  cases henv : compileEnv L spec.Env.entries ∅ with
  | error e => simp [henv] at h
  | ok env =>
    have hlook : ∀ k, (env.lookup k).map Except.ok = (spec.Env.lookup k).map L.Compile := by
      intro k
      rw [compileEnv_ok_lookup L spec.Env.entries spec.Env.nodupKeys ∅ env henv k]
      unfold AList.lookup
      cases List.dlookup k spec.Env.entries <;> simp
    simp only [henv] at h
    by_cases hd : spec.Delay = ""
    · simp [hd] at h
      subst h
      exact ⟨rfl, rfl, rfl, hlook, fun _ => rfl, fun h2 => absurd hd h2, rfl⟩
    · cases hp : L.ParseDuration spec.Delay with
      | error e => simp [hd, hp] at h
      | ok d =>
        simp [hd, hp] at h
        subst h
        exact ⟨rfl, rfl, rfl, hlook, fun h2 => absurd h2 hd, fun _ => rfl, rfl⟩

/-- C5: `Compile` returns an error iff a pattern of the env does not compile
or the delay is not empty and does not parse; when it succeeds the compiled
rule has the name, the command and the no-timeout flag of the spec, an `Env`
with the keys of the spec, each mapped to the compilation of its pattern, a
delay of 3 seconds when the spec has none and the parsed delay otherwise, and
the zero time as `lastRun`. -/
theorem C5_compile_result (L : GoLib) (spec : Rule) :
    ((∃ err, spec.Compile L = .error err) ↔
      ((∃ k p, spec.Env.lookup k = some p ∧ ∃ err, L.Compile p = .error err) ∨
       (spec.Delay ≠ "" ∧ ∃ err, L.ParseDuration spec.Delay = .error err))) ∧
    (∀ c, spec.Compile L = .ok c →
      c.Name = spec.Name ∧ c.Run = spec.Run ∧ c.NoTimeout = spec.NoTimeout ∧
      (∀ k, (c.Env.lookup k).map Except.ok = (spec.Env.lookup k).map L.Compile) ∧
      (spec.Delay = "" → c.Delay = 3 * Second) ∧
      (spec.Delay ≠ "" → L.ParseDuration spec.Delay = .ok c.Delay) ∧
      c.lastRun = zeroTime) :=
  ⟨Rule.Compile_error_iff L spec, fun c h => Rule.Compile_ok L spec c h⟩

/-- C5 at three specs (model library): the pattern `*usb` does not compile,
the delay `soon` does not parse, and the spec with the pattern `usb` and no
delay compiles to a rule with a delay of 3 seconds. -/
theorem C5_compile_result_witness :
    (∃ err, Rule.Compile goLib
      ⟨"bad", AList.insert "SUBSYSTEM" "*usb" ∅, "", "", false⟩ = .error err) ∧
    (∃ err, Rule.Compile goLib ⟨"bad", ∅, "", "soon", false⟩ = .error err) ∧
    (3000000000 : Duration) = 3 * Second :=
  ⟨(C5_compile_result goLib ⟨"bad", AList.insert "SUBSYSTEM" "*usb" ∅, "", "", false⟩).1.mpr
      (Or.inl ⟨"SUBSYSTEM", "*usb", rfl, _, rfl⟩),
   (C5_compile_result goLib ⟨"bad", ∅, "", "soon", false⟩).1.mpr
      (Or.inr ⟨by decide, _, rfl⟩),
   ((C5_compile_result goLib
      ⟨"usb", AList.insert "SUBSYSTEM" "usb" ∅, "/usr/bin/true", "", true⟩).2
      ⟨zeroTime, "usb",
        AList.insert "SUBSYSTEM"
          (.cat (.cls (.lit 'u')) (.cat (.cls (.lit 's')) (.cat (.cls (.lit 'b')) .eps))) ∅,
        "/usr/bin/true", 3000000000, true⟩ rfl).2.2.2.2.1 rfl⟩

/-! ## The argument vector and the first dispatch -/

theorem splitOnP_congr_of_mem {α : Type} (p q : α → Bool) (l : List α)
    (h : ∀ x ∈ l, p x = q x) : l.splitOnP p = l.splitOnP q := by
  induction l with
  | nil => simp
  | cons x xs ih =>
    rw [List.splitOnP_cons, List.splitOnP_cons, h x (by simp),
      ih (fun y hy => h y (by simp [hy]))]

theorem stringsSplit_filter_eq_spec (s : String)
    (h : ∀ c ∈ s.data, isSpaceChar c = true → c = ' ') :
    (stringsSplit s ' ').filter (fun t => t != "") = specWhitespaceSplit s := by
  have h1 : s.data.splitOnP isSpaceChar = s.data.splitOnP (fun c => c == ' ') := by
    apply splitOnP_congr_of_mem
    intro c hc
    by_cases hs : isSpaceChar c = true
    · rw [hs, h c hc hs]; rfl
    · have hne : c ≠ ' ' := by
        rintro rfl
        exact hs (by decide)
      simp [hs, hne]
  unfold specWhitespaceSplit stringsSplit
  rw [h1, splitChars_eq_splitOn]
  unfold List.splitOn
  generalize s.data.splitOnP (fun c => c == ' ') = pieces
  induction pieces with
  | nil => rfl
  | cons t ts ih =>
    cases t with
    | nil =>
      have : (String.mk [] != "") = false := by decide
      simp [List.filter_cons, this, ih]
    | cons c cs =>
      have : (String.mk (c :: cs) != "") = true := by
        simp [bne, String.ext_iff]
      simp [List.filter_cons, this, ih]

/-- C8 (as amended): the argument vector that a dispatch executes is the split
of `Run` at every single space: joining it with spaces gives `Run` back, no
token holds a space, and there is one token more than spaces in `Run` (so
tokens are empty where spaces are adjacent, leading or trailing, and other
whitespace does not separate).  When the only whitespace of `Run` is the
space, its non-empty tokens are the whitespace-split of `Run`. -/
theorem C8_argv_split_at_spaces (L : GoLib) (r : cRule L) (now done : Time)
    (run : Cmd → CmdResult) (h : r.MustRun now = true) :
    ∃ r2 cmd, r.RunCommand now run done = some (r2, some cmd) ∧
      cmd.args.map String.data = r.Run.data.splitOn ' ' ∧
      List.intercalate [' '] (cmd.args.map String.data) = r.Run.data ∧
      (∀ tok ∈ cmd.args, ' ' ∉ tok.data) ∧
      cmd.args.length = r.Run.data.count ' ' + 1 ∧
      ((∀ c ∈ r.Run.data, isSpaceChar c = true → c = ' ') →
        cmd.args.filter (fun t => t != "") = specWhitespaceSplit r.Run) := by
  rw [cRule.RunCommand_of_mustRun r now done run h]
  have hmap : (stringsSplit r.Run ' ').map String.data = splitChars ' ' r.Run.data := by
    simp [stringsSplit, Function.comp_def]
  refine ⟨_, _, rfl, ?_, ?_, ?_, ?_, ?_⟩
  · show (stringsSplit r.Run ' ').map String.data = _
    rw [hmap, splitChars_eq_splitOn]
  · show List.intercalate [' '] ((stringsSplit r.Run ' ').map String.data) = _
    rw [hmap, splitChars_intercalate]
  · intro tok htok
    have : tok.data ∈ (stringsSplit r.Run ' ').map String.data := List.mem_map_of_mem _ htok
    rw [hmap] at this
    exact splitChars_not_mem ' ' _ _ this
  · show (stringsSplit r.Run ' ').length = _
    simp [stringsSplit, splitChars_length]
  · intro hsp
    exact stringsSplit_filter_eq_spec r.Run hsp

/-- C8 at the rule with the command line `/bin/echo hi`, never run, 20
seconds after the zero time. -/
theorem C8_argv_split_at_spaces_witness :
    ∃ r2 cmd, cRule.RunCommand (L := goLib) ⟨zeroTime, "r", ∅, "/bin/echo hi", 0, false⟩
        20000000000 (fun _ => ⟨"", Option.none⟩) 21000000000 = some (r2, some cmd) ∧
      cmd.args.filter (fun t => t != "") = specWhitespaceSplit "/bin/echo hi" :=
  (C8_argv_split_at_spaces goLib ⟨zeroTime, "r", ∅, "/bin/echo hi", 0, false⟩
    20000000000 21000000000 (fun _ => ⟨"", Option.none⟩) (by decide)).elim
    (fun r2 h2 => h2.elim (fun cmd h3 => ⟨r2, cmd, h3.1, h3.2.2.2.2.2 (by decide)⟩))

/-- C8 as stated fails: with two spaces in a row the executed vector holds an
empty token, and a tab does not separate tokens, unlike the whitespace-split. -/
theorem C8_counterexample :
    ((cRule.RunCommand (L := goLib) ⟨zeroTime, "r", ∅, "echo  hi", 0, false⟩
        20000000000 (fun _ => ⟨"", Option.none⟩) 21000000000).map
        (fun p => p.2.map Cmd.args) = some (some ["echo", "", "hi"])) ∧
    specWhitespaceSplit "echo  hi" = ["echo", "hi"] ∧
    ((cRule.RunCommand (L := goLib) ⟨zeroTime, "r", ∅, "ls\t-l", 0, false⟩
        20000000000 (fun _ => ⟨"", Option.none⟩) 21000000000).map
        (fun p => p.2.map Cmd.args) = some (some ["ls\t-l"])) ∧
    specWhitespaceSplit "ls\t-l" = ["ls", "-l"] := by
  refine ⟨by decide, by decide, by decide, by decide⟩

theorem dispatchAll_of_fail {L : GoLib} (r : cRule L)
    (steps : List (Time × (Cmd → CmdResult) × Time))
    (h : ∀ st ∈ steps, ∀ cmd, (st.2.1 cmd).err ≠ Option.none) :
    dispatchAll r steps = some r := by
  induction steps with
  | nil => rfl
  | cons st rest ih =>
    obtain ⟨now, run, done⟩ := st
    have hrun : ∀ cmd, (run cmd).err ≠ Option.none := h (now, run, done) (by simp)
    have hstep : ∃ cmd, r.RunCommand now run done = some (r, cmd) := by
      by_cases hm : r.MustRun now = true
      · rw [cRule.RunCommand_of_mustRun r now done run hm]
        cases he : (run ⟨stringsSplit r.Run ' ',
            if r.NoTimeout then Option.none else some (Second * 30)⟩).err with
        | none => exact absurd he (hrun _)
        | some e => exact ⟨_, rfl⟩
      · have hm2 : r.MustRun now = false := by simpa using hm
        exact ⟨_, cRule.RunCommand_of_not_mustRun r now done run hm2⟩
    obtain ⟨cmd, hcmd⟩ := hstep
    simp only [dispatchAll, hcmd]
    exact ih (fun st hst => h st (by simp [hst]))

/-- C10: a rule freshly compiled from a spec with a non-empty command has the
zero time as `lastRun`, so `MustRun` is true at every time more than 10
seconds after the zero time and a dispatch then executes a command; and as
long as the commands fail the rule stays as compiled, so the guard keeps
passing on the later dispatches. -/
theorem C10_never_run_passes_guard (L : GoLib) (spec : Rule) (c : cRule L)
    (hc : spec.Compile L = .ok c) (hrun : spec.Run ≠ "") :
    c.lastRun = zeroTime ∧
    (∀ now, now > zeroTime + 10 * Second → c.MustRun now = true) ∧
    (∀ now run done, now > zeroTime + 10 * Second →
      ∃ r2 cmd, c.RunCommand now run done = some (r2, some cmd)) ∧
    (∀ steps : List (Time × (Cmd → CmdResult) × Time),
      (∀ st ∈ steps, ∀ cmd, (st.2.1 cmd).err ≠ Option.none) →
      dispatchAll c steps = some c) := by
  obtain ⟨_, hr, _, _, _, _, hl⟩ := Rule.Compile_ok L spec c hc
  have hm : ∀ now, now > zeroTime + 10 * Second → c.MustRun now = true := by
    intro now hnow
    rw [cRule.MustRun_iff, hr, hl]
    refine ⟨hrun, ?_⟩
    unfold zeroTime Second at *
    unfold Time Duration at *
    omega
  refine ⟨hl, hm, ?_, ?_⟩
  · intro now run done hnow
    rw [cRule.RunCommand_of_mustRun c now done run (hm now hnow)]
    exact ⟨_, _, rfl⟩
  · intro steps hsteps
    exact dispatchAll_of_fail c steps hsteps

/-- C10 at the spec with the command `/usr/bin/true` (model library), 11
seconds after the zero time, and after two failed dispatches. -/
theorem C10_never_run_passes_guard_witness :
    cRule.MustRun (L := goLib) ⟨zeroTime, "r", ∅, "/usr/bin/true", 3000000000, false⟩
      11000000000 = true ∧
    dispatchAll (L := goLib) ⟨zeroTime, "r", ∅, "/usr/bin/true", 3000000000, false⟩
      [(11000000000, fun _ => ⟨"", some "exit status 1"⟩, 12000000000),
       (15000000000, fun _ => ⟨"", some "signal: killed"⟩, 45000000000)] =
      some ⟨zeroTime, "r", ∅, "/usr/bin/true", 3000000000, false⟩ :=
  ⟨(C10_never_run_passes_guard goLib ⟨"r", ∅, "/usr/bin/true", "", false⟩
      ⟨zeroTime, "r", ∅, "/usr/bin/true", 3000000000, false⟩ rfl (by decide)).2.1
      11000000000 (by decide),
   (C10_never_run_passes_guard goLib ⟨"r", ∅, "/usr/bin/true", "", false⟩
      ⟨zeroTime, "r", ∅, "/usr/bin/true", 3000000000, false⟩ rfl (by decide)).2.2.2
      [(11000000000, fun _ => ⟨"", some "exit status 1"⟩, 12000000000),
       (15000000000, fun _ => ⟨"", some "signal: killed"⟩, 45000000000)]
      (by
        intro st hst cmd
        simp at hst
        rcases hst with rfl | rfl <;> simp)⟩

/-! ## Loading the rules and the engine loop -/

theorem decodeAll_map_ok (rules acc : List Rule) :
    decodeAll (rules.map Except.ok) acc = .ok (acc ++ rules) := by
  induction rules generalizing acc with
  | nil => simp [decodeAll]
  | cons r rest ih => simp [decodeAll, ih]

theorem decodeAll_ok (docs : List (Except String Rule)) (acc rules : List Rule)
    (h : decodeAll docs acc = .ok rules) :
    ∃ rs, docs = rs.map Except.ok ∧ rules = acc ++ rs := by
  induction docs generalizing acc with
  | nil =>
    simp [decodeAll] at h
    exact ⟨[], rfl, by simp [h]⟩
  | cons d rest ih =>
    cases d with
    | error e => simp [decodeAll] at h
    | ok r =>
      simp only [decodeAll] at h
      obtain ⟨rs, h1, h2⟩ := ih _ h
      exact ⟨r :: rs, by simp [h1], by simp [h2]⟩

theorem Rule.Compile_cases (L : GoLib) (r : Rule) :
    (∃ c, r.Compile L = .ok c ∧ ¬ r.Invalid L) ∨ (∃ e, r.Compile L = .error e ∧ r.Invalid L) := by
  cases h : r.Compile L with
  | ok c =>
    left
    refine ⟨c, rfl, ?_⟩
    intro hinv
    obtain ⟨e, he⟩ := (Rule.Compile_error_iff L r).mpr hinv
    rw [h] at he
    cases he
  | error e =>
    right
    exact ⟨e, rfl, (Rule.Compile_error_iff L r).mp ⟨e, h⟩⟩

/-- What the compiling loop does: it appends the compiled rules of the records
before the first invalid one, and stops there with the error of that record. -/
theorem compileAll_spec (L : GoLib) (rules : List Rule) (u : Uudev L) :
    ∃ good cs, List.Forall₂ (fun r c => r.Compile L = .ok c) good cs ∧
      (∀ r ∈ good, ¬ r.Invalid L) ∧
      (compileAll L rules u).1 = { u with Rules := u.Rules ++ cs } ∧
      (((compileAll L rules u).2 = Option.none ∧ good = rules) ∨
       (∃ bad rest e, rules = good ++ bad :: rest ∧ bad.Invalid L ∧
          bad.Compile L = .error e ∧ (compileAll L rules u).2 = some e)) := by
  induction rules generalizing u with
  | nil =>
    exact ⟨[], [], List.Forall₂.nil, by simp, by simp [compileAll], Or.inl ⟨rfl, rfl⟩⟩
  | cons r rest ih =>
    rcases Rule.Compile_cases L r with ⟨c, hc, hv⟩ | ⟨e, he, hi⟩
    · obtain ⟨good, cs, h1, h2, h3, h4⟩ := ih { u with Rules := u.Rules ++ [c] }
      refine ⟨r :: good, c :: cs, List.Forall₂.cons hc h1, ?_, ?_, ?_⟩
      · intro x hx
        simp at hx
        rcases hx with rfl | hx
        · exact hv
        · exact h2 x hx
      · simp only [compileAll, hc]
        rw [h3]
        simp
      · simp only [compileAll, hc]
        rcases h4 with ⟨h5, h6⟩ | ⟨bad, rest2, e, h5, h6, h7, h8⟩
        · exact Or.inl ⟨h5, by rw [h6]⟩
        · exact Or.inr ⟨bad, rest2, e, by simp [h5], h6, h7, h8⟩
    · refine ⟨[], [], List.Forall₂.nil, by simp, ?_, ?_⟩
      · simp [compileAll, he]
      · exact Or.inr ⟨r, rest, e, rfl, hi, he, by simp [compileAll, he]⟩

/-- C6 (as amended): when a record of the decoded sequence is invalid,
`LoadRules` returns the error of the first invalid record, and `u.Rules` is
then what it was before the call followed by the compiled rules of the
records that precede that record, in order; it is unchanged when no record
precedes it. -/
theorem C6_loadRules_invalid_record (L : GoLib) (u : Uudev L) (rules : List Rule)
    (h : ∃ r ∈ rules, r.Invalid L) :
    ∃ good bad rest cs e, rules = good ++ bad :: rest ∧
      (∀ r ∈ good, ¬ r.Invalid L) ∧ bad.Invalid L ∧ bad.Compile L = .error e ∧
      List.Forall₂ (fun r c => r.Compile L = .ok c) good cs ∧
      (u.LoadRules (rules.map Except.ok)).2 = some e ∧
      (u.LoadRules (rules.map Except.ok)).1.Rules = u.Rules ++ cs ∧
      (good = [] → (u.LoadRules (rules.map Except.ok)).1 = u) := by
  have hload : u.LoadRules (rules.map Except.ok) = compileAll L rules u := by
    simp [Uudev.LoadRules, decodeAll_map_ok]
  rw [hload]
  obtain ⟨good, cs, h1, h2, h3, h4⟩ := compileAll_spec L rules u
  rcases h4 with ⟨_, h6⟩ | ⟨bad, rest, e, h5, h6, h7, h8⟩
  · obtain ⟨r, hr, hinv⟩ := h
    rw [h6] at h2
    exact absurd hinv (h2 r hr)
  · refine ⟨good, bad, rest, cs, e, h5, h2, h6, h7, h1, h8, by rw [h3], ?_⟩
    intro hg
    subst hg
    cases h1
    rw [h3]
    simp

/-- C6 at a first record with the delay `soon` (model library), loaded into an
engine that holds one rule: the error is returned and the engine is
unchanged. -/
theorem C6_loadRules_invalid_record_witness :
    ∃ good bad rest cs e,
      [(⟨"bad", ∅, "/usr/bin/true", "soon", false⟩ : Rule)] = good ++ bad :: rest ∧
      List.Forall₂ (fun r c => r.Compile goLib = .ok c) good cs ∧
      (Uudev.LoadRules (L := goLib) ⟨[⟨zeroTime, "r", ∅, "", 0, false⟩], false⟩
        ([(⟨"bad", ∅, "/usr/bin/true", "soon", false⟩ : Rule)].map Except.ok)).2 = some e ∧
      (Uudev.LoadRules (L := goLib) ⟨[⟨zeroTime, "r", ∅, "", 0, false⟩], false⟩
        ([(⟨"bad", ∅, "/usr/bin/true", "soon", false⟩ : Rule)].map Except.ok)).1.Rules =
        [⟨zeroTime, "r", ∅, "", 0, false⟩] ++ cs :=
  (C6_loadRules_invalid_record goLib ⟨[⟨zeroTime, "r", ∅, "", 0, false⟩], false⟩
    [⟨"bad", ∅, "/usr/bin/true", "soon", false⟩]
    ⟨_, List.mem_singleton.mpr rfl, Or.inr ⟨by decide, _, rfl⟩⟩).elim
    (fun good h1 => h1.elim (fun bad h2 => h2.elim (fun rest h3 => h3.elim (fun cs h4 =>
      h4.elim (fun e h5 =>
        ⟨good, bad, rest, cs, e, h5.1, h5.2.2.2.2.1, h5.2.2.2.2.2.1, h5.2.2.2.2.2.2.1⟩)))))

/-- C6 as stated fails: a valid record followed by a record with the delay
`soon` makes `LoadRules` return an error and leaves the compiled first
record in `u.Rules`. -/
theorem C6_counterexample :
    (Rule.Invalid goLib ⟨"bad", ∅, "/usr/bin/true", "soon", false⟩) ∧
    ((Uudev.LoadRules (L := goLib) ⟨[], false⟩
      [.ok ⟨"good", ∅, "/usr/bin/true", "", false⟩,
       .ok ⟨"bad", ∅, "/usr/bin/true", "soon", false⟩]).2 = some "time: invalid duration") ∧
    ((Uudev.LoadRules (L := goLib) ⟨[], false⟩
      [.ok ⟨"good", ∅, "/usr/bin/true", "", false⟩,
       .ok ⟨"bad", ∅, "/usr/bin/true", "soon", false⟩]).1.Rules.length = 1) ∧
    ((Uudev.LoadRules (L := goLib) ⟨[], false⟩
      [.ok ⟨"good", ∅, "/usr/bin/true", "", false⟩,
       .ok ⟨"bad", ∅, "/usr/bin/true", "soon", false⟩]).1.Rules ≠
      (⟨[], false⟩ : Uudev goLib).Rules) := by
  refine ⟨Or.inr ⟨by decide, _, rfl⟩, by decide, by decide, ?_⟩
  intro h
  have := congrArg List.length h
  revert this
  decide

theorem runRules_eq {L : GoLib} (event : Event) (rules : List (cRule L)) (i : Nat) :
    runRules event rules i =
      ((List.range rules.length).filter (matchesAt rules event)).map (fun j => i + j) := by
  induction rules generalizing i with
  | nil => simp [runRules]
  | cons r rest ih =>
    rw [List.length_cons, List.range_succ_eq_map]
    have hf : ((fun j => i + j) ∘ Nat.succ) = fun j => i + 1 + j := by
      funext j
      simp only [Function.comp]
      omega
    have hg : (matchesAt (r :: rest) event ∘ Nat.succ) = matchesAt rest event := by
      funext j
      simp [Function.comp, matchesAt]
    have h0 : matchesAt (r :: rest) event 0 = r.Match event := by
      simp [matchesAt]
    simp only [runRules, List.filter_cons, h0]
    rw [ih (i + 1), List.filter_map, hg]
    by_cases hm : r.Match event = true
    · simp only [hm, if_true, List.map_cons, List.map_map, hf, Nat.add_zero]
    · simp only [hm, if_false, Bool.false_eq_true, List.map_map, hf]

/-- C7: one iteration of the engine loop calls `RunCommand` for the indices of
`u.Rules` whose rule matches the event, each once, in increasing order, and
for no other; and a successful `LoadRules` appends to `u.Rules` the compiled
rules of the decoded records, in the order of the records. -/
theorem C7_run_dispatches_matches_in_order (L : GoLib) (u : Uudev L) (event : Event) :
    u.RunEvent event = (List.range u.Rules.length).filter (matchesAt u.Rules event) ∧
    (u.RunEvent event).Pairwise (fun i j => i < j) ∧
    (∀ i (hi : i < u.Rules.length),
      (u.RunEvent event).count i = if u.Rules[i].Match event then 1 else 0) ∧
    (∀ i, u.Rules.length ≤ i → (u.RunEvent event).count i = 0) ∧
    (∀ docs u2, u.LoadRules docs = (u2, Option.none) →
      ∃ rules cs, docs = rules.map Except.ok ∧
        List.Forall₂ (fun r c => r.Compile L = .ok c) rules cs ∧
        u2.Rules = u.Rules ++ cs) := by
  have heq : u.RunEvent event =
      (List.range u.Rules.length).filter (matchesAt u.Rules event) := by
    simp [Uudev.RunEvent, runRules_eq]
  have hnd : (u.RunEvent event).Nodup := by
    rw [heq]
    exact (List.nodup_range _).filter _
  refine ⟨heq, ?_, ?_, ?_, ?_⟩
  · rw [heq]
    exact (List.pairwise_lt_range _).filter _
  · intro i hi
    by_cases hm : u.Rules[i].Match event = true
    · rw [if_pos hm]
      apply List.count_eq_one_of_mem hnd
      rw [heq, List.mem_filter]
      exact ⟨List.mem_range.mpr hi, by simp [matchesAt, List.getElem?_eq_getElem hi, hm]⟩
    · rw [if_neg hm]
      apply List.count_eq_zero_of_not_mem
      rw [heq, List.mem_filter]
      rintro ⟨_, h2⟩
      simp [matchesAt, List.getElem?_eq_getElem hi] at h2
      exact hm h2
  · intro i hi
    apply List.count_eq_zero_of_not_mem
    rw [heq, List.mem_filter]
    rintro ⟨h1, _⟩
    have := List.mem_range.mp h1
    omega
  · intro docs u2 hload
    unfold Uudev.LoadRules at hload
    cases hd : decodeAll docs [] with
    | error e => simp [hd] at hload
    | ok rules =>
      simp only [hd] at hload
      obtain ⟨rs, h1, h2⟩ := decodeAll_ok docs [] rules hd
      simp at h2
      subst h2
      obtain ⟨good, cs, h3, _, h5, h6⟩ := compileAll_spec L rules u
      rw [hload] at h5 h6
      rcases h6 with ⟨_, h7⟩ | ⟨_, _, e, _, _, _, h8⟩
      · subst h7
        refine ⟨good, cs, h1, h3, ?_⟩
        simp at h5
        rw [h5]
      · simp at h8

/-- C7 at an engine with a rule that matches every event, a rule on the key
`SUBSYSTEM` and a second rule that matches every event, for an event without
that key: the rules 0 and 2 are dispatched once, the rule 1 is not. -/
theorem C7_run_dispatches_matches_in_order_witness :
    (Uudev.RunEvent (L := goLib)
      ⟨[⟨zeroTime, "a", ∅, "", 0, false⟩,
        ⟨zeroTime, "b", AList.insert "SUBSYSTEM" (Regexp.cls (.lit 'u')) ∅, "", 0, false⟩,
        ⟨zeroTime, "c", ∅, "", 0, false⟩], false⟩
      (AList.insert "ACTION" "add" ∅)).count 2 = 1 ∧
    (Uudev.RunEvent (L := goLib)
      ⟨[⟨zeroTime, "a", ∅, "", 0, false⟩,
        ⟨zeroTime, "b", AList.insert "SUBSYSTEM" (Regexp.cls (.lit 'u')) ∅, "", 0, false⟩,
        ⟨zeroTime, "c", ∅, "", 0, false⟩], false⟩
      (AList.insert "ACTION" "add" ∅)).count 3 = 0 ∧
    ∃ rules cs, [(Except.ok ⟨"n", ∅, "", "", false⟩ : Except String Rule)] =
        rules.map Except.ok ∧
      List.Forall₂ (fun r c => r.Compile goLib = .ok c) rules cs :=
  ⟨(C7_run_dispatches_matches_in_order goLib
      ⟨[⟨zeroTime, "a", ∅, "", 0, false⟩,
        ⟨zeroTime, "b", AList.insert "SUBSYSTEM" (Regexp.cls (.lit 'u')) ∅, "", 0, false⟩,
        ⟨zeroTime, "c", ∅, "", 0, false⟩], false⟩
      (AList.insert "ACTION" "add" ∅)).2.2.1 2 (by decide),
   (C7_run_dispatches_matches_in_order goLib
      ⟨[⟨zeroTime, "a", ∅, "", 0, false⟩,
        ⟨zeroTime, "b", AList.insert "SUBSYSTEM" (Regexp.cls (.lit 'u')) ∅, "", 0, false⟩,
        ⟨zeroTime, "c", ∅, "", 0, false⟩], false⟩
      (AList.insert "ACTION" "add" ∅)).2.2.2.1 3 (by decide),
   ((C7_run_dispatches_matches_in_order goLib ⟨[], false⟩ ∅).2.2.2.2
      [Except.ok ⟨"n", ∅, "", "", false⟩]
      ⟨[⟨zeroTime, "n", ∅, "", 3000000000, false⟩], false⟩ rfl).elim
      (fun rules h => h.elim (fun cs h2 => ⟨rules, cs, h2.1, h2.2.1⟩))⟩

/-! ## The rule on `SUBSYSTEM` -/

theorem regexpCompile_usb_anchored :
    regexpCompile "^usb$" =
      .ok (.cat .beginText (.cat (.cls (.lit 'u')) (.cat (.cls (.lit 's'))
        (.cat (.cls (.lit 'b')) (.cat .endText .eps))))) := by
  rfl

/-- The texts that the pattern `^usb$` matches: `usb` alone. -/
theorem usb_anchored_MatchString_iff (s : String) :
    Regexp.MatchString (.cat .beginText (.cat (.cls (.lit 'u')) (.cat (.cls (.lit 's'))
        (.cat (.cls (.lit 'b')) (.cat .endText .eps))))) s = true ↔ s = "usb" := by
  rw [Regexp.MatchString_iff]
  constructor
  · rintro ⟨u, v, w, hs, h⟩
    simp only [Regexp.den_cat_iff, Regexp.den_beginText_iff, Regexp.den_endText_iff,
      Regexp.den_cls_iff, Regexp.den_eps_iff] at h
    obtain ⟨v1, v2, hv, ⟨hv1, hu⟩, a1, a2, ha, ⟨c1, hc1, ht1⟩, b1, b2, hb, ⟨c2, hc2, ht2⟩,
      d1, d2, hd, ⟨c3, hc3, ht3⟩, f1, f2, hf, ⟨hf1, hw⟩, hf2⟩ := h
    subst hv1 hc1 hc2 hc3 hf1 hf2 hf hd hb ha hv
    simp [CharClass.test] at ht1 ht2 ht3
    subst ht1 ht2 ht3
    simp at hu hw
    subst hu hw
    apply String.ext
    simp [hs]
  · rintro rfl
    refine ⟨[], ['u', 's', 'b'], [], rfl, ?_⟩
    simp only [Regexp.den_cat_iff, Regexp.den_beginText_iff, Regexp.den_endText_iff,
      Regexp.den_cls_iff, Regexp.den_eps_iff]
    exact ⟨[], ['u', 's', 'b'], rfl, ⟨rfl, rfl⟩, ['u'], ['s', 'b'], rfl, ⟨'u', rfl, by decide⟩,
      ['s'], ['b'], rfl, ⟨'s', rfl, by decide⟩, ['b'], [], rfl, ⟨'b', rfl, by decide⟩,
      [], [], rfl, ⟨rfl, rfl⟩, rfl⟩

/-- C9 (as amended): a rule compiled from the env `SUBSYSTEM: ^usb$` matches
an event iff its value of `SUBSYSTEM` is exactly `usb`, the pattern being
anchored at both ends: it matches the event with `usb` and matches neither
the event with `usb-misc` nor the event with `pci`.  The search by itself is
a substring search: the rule compiled from the pattern `usb` matches the
event with `usb-misc`. -/
theorem C9_anchored_usb_matches_only_usb (spec : Rule) (c : cRule goLib)
    (henv : spec.Env = AList.insert "SUBSYSTEM" "^usb$" ∅)
    (hc : spec.Compile goLib = .ok c) :
    (∀ e : Event, c.Match e = true ↔ e.get "SUBSYSTEM" = "usb") ∧
    c.Match (AList.insert "SUBSYSTEM" "usb" ∅) = true ∧
    c.Match (AList.insert "SUBSYSTEM" "usb-misc" ∅) = false ∧
    c.Match (AList.insert "SUBSYSTEM" "pci" ∅) = false ∧
    (Rule.Compile goLib ⟨"usb", AList.insert "SUBSYSTEM" "usb" ∅, "", "", false⟩).toOption.map
      (fun c2 => c2.Match (AList.insert "SUBSYSTEM" "usb-misc" ∅)) = some true := by
  have hlook := (Rule.Compile_ok goLib spec c hc).2.2.2.1
  have hiff : ∀ e : Event, c.Match e = true ↔ e.get "SUBSYSTEM" = "usb" := by
    intro e
    rw [cRule.Match_iff, ← usb_anchored_MatchString_iff]
    constructor
    · intro h
      apply h "SUBSYSTEM"
      have h1 := hlook "SUBSYSTEM"
      rw [henv] at h1
      simp only [AList.lookup_insert, Option.map_some'] at h1
      cases hl : AList.lookup "SUBSYSTEM" c.Env with
      | none => rw [hl] at h1; cases h1
      | some re =>
        rw [hl] at h1
        simp only [Option.map_some', Option.some.injEq] at h1
        have h2 : goLib.Compile "^usb$" = regexpCompile "^usb$" := rfl
        rw [h2, regexpCompile_usb_anchored] at h1
        cases h1
        rfl
    · intro h k re hk
      have h1 := hlook k
      rw [henv, hk] at h1
      by_cases hks : k = "SUBSYSTEM"
      · subst hks
        simp only [AList.lookup_insert, Option.map_some', Option.some.injEq] at h1
        have h2 : goLib.Compile "^usb$" = regexpCompile "^usb$" := rfl
        rw [h2, regexpCompile_usb_anchored] at h1
        cases h1
        exact h
      · rw [AList.lookup_insert_ne hks] at h1
        simp at h1
  refine ⟨hiff, ?_, ?_, ?_, by decide⟩
  · rw [hiff]; decide
  · rw [← Bool.not_eq_true, hiff]; decide
  · rw [← Bool.not_eq_true, hiff]; decide

/-- C9 at the spec named `usb` with the command `/usr/bin/true` and no delay. -/
theorem C9_anchored_usb_matches_only_usb_witness :
    cRule.Match (L := goLib)
      ⟨zeroTime, "usb",
        AList.insert "SUBSYSTEM" (.cat .beginText (.cat (.cls (.lit 'u')) (.cat (.cls (.lit 's'))
          (.cat (.cls (.lit 'b')) (.cat .endText .eps))))) ∅,
        "/usr/bin/true", 3000000000, false⟩
      (AList.insert "SUBSYSTEM" "usb-misc" ∅) = false :=
  (C9_anchored_usb_matches_only_usb
    ⟨"usb", AList.insert "SUBSYSTEM" "^usb$" ∅, "/usr/bin/true", "", false⟩
    ⟨zeroTime, "usb",
      AList.insert "SUBSYSTEM" (.cat .beginText (.cat (.cls (.lit 'u')) (.cat (.cls (.lit 's'))
        (.cat (.cls (.lit 'b')) (.cat .endText .eps))))) ∅,
      "/usr/bin/true", 3000000000, false⟩ rfl rfl).2.2.1

/-- C9 as stated fails: the rule compiled from the env `SUBSYSTEM: ^usb$` does
not match the event whose `SUBSYSTEM` is `usb-misc`. -/
theorem C9_counterexample :
    (Rule.Compile goLib
      ⟨"usb", AList.insert "SUBSYSTEM" "^usb$" ∅, "/usr/bin/true", "", false⟩).toOption.map
      (fun c => c.Match (AList.insert "SUBSYSTEM" "usb-misc" ∅)) = some false := by
  decide

/-- C4 at a rule never run, 20 seconds after the zero time, with a command
that succeeds at 21 seconds, and at a rule with an empty command line. -/
theorem C4_runCommand_lastRun_witness :
    (∃ r2 cmd, cRule.RunCommand (L := goLib) ⟨zeroTime, "r", ∅, "/usr/bin/true", 0, false⟩
        20000000000 (fun _ => ⟨"", Option.none⟩) 21000000000 = some (r2, cmd) ∧
      ∃ c, cmd = some c ∧ r2.lastRun = 21000000000) ∧
    (∃ r2 cmd, cRule.RunCommand (L := goLib) ⟨zeroTime, "r", ∅, "", 0, false⟩
        20000000000 (fun _ => ⟨"", Option.none⟩) 21000000000 = some (r2, cmd) ∧
      cmd = Option.none ∧ r2 = ⟨zeroTime, "r", ∅, "", 0, false⟩) :=
  ⟨(C4_runCommand_lastRun goLib ⟨zeroTime, "r", ∅, "/usr/bin/true", 0, false⟩
      20000000000 21000000000 (fun _ => ⟨"", Option.none⟩)).elim
      (fun r2 h => h.elim (fun cmd h2 =>
        ⟨r2, cmd, h2.1, (h2.2.2.1 (by decide)).elim (fun c h3 => ⟨c, h3.1, h3.2.1 rfl⟩)⟩)),
   (C4_runCommand_lastRun goLib ⟨zeroTime, "r", ∅, "", 0, false⟩
      20000000000 21000000000 (fun _ => ⟨"", Option.none⟩)).elim
      (fun r2 h => h.elim (fun cmd h2 => ⟨r2, cmd, h2.1, h2.2.1 (by decide)⟩))⟩
end Main
